import Mathlib

/-
Verification of the dependency-graph engine of conda_gitlab_ci
(src/conda_gitlab_ci/compute_build_graph.py), shallowly embedded in Lean.

The graph is a networkx DiGraph whose node attribute dictionaries hold the
keys meta, recipe, build, test, install.  We model it as an ordered
association list of node names to attribute records plus an ordered edge
list (Python dicts preserve insertion order and have unique keys; updates
therefore touch the first matching entry of the association list).
External collaborators (conda_build.api.render, the conda resolver, git)
are modelled as oracle functions or as pre-rendered input data.
-/

set_option maxHeartbeats 1000000
set_option maxRecDepth 4000

namespace CGC

/-- The dictionary produced by describe_meta: build number, build_depends,
run_test_depends (each a name-to-version-constraint mapping) and version. -/
structure Meta where
  build : Nat
  build_depends : List (String × String)
  run_test_depends : List (String × String)
  version : String
deriving DecidableEq, Repr

/-- One node attribute dictionary: the keys meta, recipe, build, test,
install of a networkx node.  Keys that a bare node lacks read as their
falsy defaults, so absent meta is none and absent flags are false. -/
structure NodeData where
  meta : Option Meta
  recipe : Option String
  build : Bool
  test : Bool
  install : Bool
deriving DecidableEq, Repr

/-- A networkx DiGraph: insertion-ordered nodes with attributes, and an
insertion-ordered edge list. -/
structure Graph where
  nodes : List (String × NodeData)
  edges : List (String × String)
deriving DecidableEq, Repr

/-- A node with no attributes set, as created implicitly by add_edge. -/
def bareNode : NodeData :=
  { meta := none, recipe := none, build := false, test := false, install := false }

/-- Look up the attribute record of a node (first matching entry). -/
def lookupN (g : Graph) (n : String) : Option NodeData :=
  (g.nodes.find? (fun p => p.1 == n)).map Prod.snd

/-- Update the first entry for name n with the transform t (dict update). -/
def updNodeL (t : NodeData → NodeData) (n : String) :
    List (String × NodeData) → List (String × NodeData)
  | [] => []
  | p :: rest => if p.1 == n then (p.1, t p.2) :: rest else p :: updNodeL t n rest

/-- Update one node attribute record in the graph. -/
def updNode (t : NodeData → NodeData) (n : String) (g : Graph) : Graph :=
  { g with nodes := updNodeL t n g.nodes }

/-- graph.node[n]['build'] = True -/
def setBuild (g : Graph) (n : String) : Graph :=
  updNode (fun d => { d with build := true }) n g

/-- graph.node[n]['install'] = True -/
def setInstall (g : Graph) (n : String) : Graph :=
  updNode (fun d => { d with install := true }) n g

/-- Append a fresh node (g.add_node for a name not yet present). -/
def addNode (g : Graph) (n : String) (d : NodeData) : Graph :=
  { g with nodes := g.nodes ++ [(n, d)] }

/-- g.add_edge(u, v): auto-create missing endpoints with empty attribute
dictionaries, then add the edge (a no-op when it already exists). -/
def add_edge (g : Graph) (u v : String) : Graph :=
  let g1 := if (lookupN g u).isSome then g else addNode g u bareNode
  let g2 := if (lookupN g1 v).isSome then g1 else addNode g1 v bareNode
  if (u, v) ∈ g2.edges then g2 else { g2 with edges := g2.edges ++ [(u, v)] }

/-- graph.successors_iter(n): targets of edges leaving n, in edge order. -/
def successors (g : Graph) (n : String) : List String :=
  (g.edges.filter (fun e => e.1 == n)).map Prod.snd

/-- graph.predecessors(n): sources of edges entering n, in edge order. -/
def predecessors (g : Graph) (n : String) : List String :=
  (g.edges.filter (fun e => e.2 == n)).map Prod.fst

/-- graph.node[n].get('meta', \x7b\x7d).get('version', "") -/
def nodeVersion (g : Graph) (n : String) : String :=
  match lookupN g n with
  | some d => match d.meta with
    | some m => m.version
    | none => ""
  | none => ""

/-- The build flag of a node, with the falsy default for missing keys. -/
def buildOf (g : Graph) (n : String) : Bool :=
  match lookupN g n with
  | some d => d.build
  | none => false

/-- The test flag of a node, with the falsy default. -/
def testOf (g : Graph) (n : String) : Bool :=
  match lookupN g n with
  | some d => d.test
  | none => false

/-- any([value.get('build'), value.get('install'), value.get('test')]) -/
def anyFlag (d : NodeData) : Bool :=
  d.build || d.install || d.test

/-- Truth of anyFlag at a node name. -/
def anyFlagOf (g : Graph) (n : String) : Bool :=
  match lookupN g n with
  | some d => anyFlag d
  | none => false

/-- The initial worklist of upstream_dependencies_needing_build: all nodes
already marked by build, install or test, in node order. -/
def seedDirty (g : Graph) : List String :=
  (g.nodes.filter (fun p => anyFlag p.2)).map Prod.fst

/-- dirty(graph): names of all nodes where build or test is set, in node
order (the keys of the returned dictionary). -/
def dirtyL (l : List (String × NodeData)) : List String :=
  (l.filter (fun p => p.2.build || p.2.test)).map Prod.fst

/-- dirty(graph) on a graph. -/
def dirty (g : Graph) : List String :=
  dirtyL g.nodes

/-- Errors of the propagation pass: the ValueError raised for an
unsatisfiable dependency (carrying its message), or exhaustion of the
fuel that stands in for nontermination of the Python worklist loop. -/
inductive PassErr where
  | unsat (msg : String)
  | fuel
deriving DecidableEq, Repr

/-- An apostrophe character. -/
def apos : Char := Char.ofNat 39

/-- The ValueError message of upstream_dependencies_needing_build; its only
format argument is the successor name. -/
def unsatMessage (pkg : String) : String :=
  "Dependency " ++ pkg ++ " is not installable, and recipe (if available)" ++
    " can" ++ apos.toString ++ "t produce desired version."

/-- The inner loop of upstream_dependencies_needing_build over the
successors of one worklist node: installable successors are skipped,
non-installable buildable ones get build=True and are appended to the
worklist, and a non-installable non-buildable one raises ValueError. -/
def processSuccs (inst bld : String → String → Bool) :
    List String → Graph → List String → Except PassErr (Graph × List String)
  | [], g, work => Except.ok (g, work)
  | s :: rest, g, work =>
    let v := nodeVersion g s
    if inst s v then processSuccs inst bld rest g work
    else if bld s v then processSuccs inst bld rest (setBuild g s) (work ++ [s])
    else Except.error (PassErr.unsat (unsatMessage s))

/-- The worklist loop of upstream_dependencies_needing_build: i is the
position of the Python for-loop in the growing dirty_nodes list. -/
def pass1Go (inst bld : String → String → Bool) :
    Nat → Graph → List String → Nat → Except PassErr (Graph × List String)
  | 0, _, _, _ => Except.error PassErr.fuel
  | fuel + 1, g, work, i =>
    if h : i < work.length then
      match processSuccs inst bld (successors g (work.get ⟨i, h⟩)) g work with
      | Except.error e => Except.error e
      | Except.ok (g2, w2) => pass1Go inst bld fuel g2 w2 (i + 1)
    else Except.ok (g, work)

/-- upstream_dependencies_needing_build(graph, conda_resolve): mutates the
graph and returns set(dirty_nodes); we return the final graph together
with the worklist, whose membership is that set. -/
def upstream_dependencies_needing_build (inst bld : String → String → Bool)
    (fuel : Nat) (g : Graph) : Except PassErr (Graph × List String) :=
  pass1Go inst bld fuel g (seedDirty g) 0

/-- The run argument of expand_run, also the deps_type selector of
construct_graph: which flag key is written. -/
inductive RunType where
  | build
  | test
deriving DecidableEq, Repr

/-- run_dict-style flag write: graph.node[n][run] = True. -/
def setFlagData (r : RunType) (d : NodeData) : NodeData :=
  match r with
  | RunType.build => { d with build := true }
  | RunType.test => { d with test := true }

/-- graph.node[n][run] = True on the graph. -/
def setFlag (r : RunType) (g : Graph) (n : String) : Graph :=
  updNode (setFlagData r) n g

/-- The predecessor loop of expand_step for one dirty node: the cap test
is max_downstream < 0 or (downstream - initial_dirty) < max_downstream,
and downstream counts every marking performed. -/
def markPreds (run : RunType) (maxD initD : Int) :
    List String → Graph → Int → Graph × Int
  | [], g, d => (g, d)
  | p :: rest, g, d =>
    if maxD < 0 ∨ d - initD < maxD then
      markPreds run maxD initD rest (setFlag run g p) (d + 1)
    else markPreds run maxD initD rest g d

/-- The node loop of expand_step over the dirty_nodes snapshot. -/
def expandStepCore (run : RunType) (maxD initD : Int) :
    List String → Graph → Int → Graph × Int
  | [], g, d => (g, d)
  | n :: rest, g, d =>
    let st := markPreds run maxD initD (predecessors g n) g d
    expandStepCore run maxD initD rest st.1 st.2

/-- expand_step(dirty_nodes, downstream): marks predecessors subject to
the cap and returns len(dirty(graph)) as the new downstream value. -/
def expand_step (run : RunType) (maxD initD : Int)
    (dirtyNodes : List String) (g : Graph) (d : Int) : Graph × Int :=
  let st := expandStepCore run maxD initD dirtyNodes g d
  (st.1, ((dirty st.1).length : Int))

/-- The steps >= 0 branch of expand_run: for step in range(steps). -/
def stepsLoop (run : RunType) (maxD initD : Int) :
    Nat → Graph → Int → Graph × Int
  | 0, g, d => (g, d)
  | k + 1, g, d =>
    let st := expand_step run maxD initD (dirty g) g d
    stepsLoop run maxD initD k st.1 st.2

/-- The steps < 0 branch of expand_run: iterate expand_step on the current
dirty set until the dirty set stops changing (fuel models the unbounded
while loop). -/
def fixLoop (run : RunType) (maxD initD : Int) :
    Nat → Graph → Int → Option Graph
  | 0, _, _ => none
  | f + 1, g, d =>
    let st := expand_step run maxD initD (dirty g) g d
    if dirty st.1 = dirty g then some st.1 else fixLoop run maxD initD f st.1 st.2

/-- expand_run(graph, conda_resolve, run, steps, max_downstream): Pass 1,
then downstream fan-out, returning dirty(graph) (with the final graph). -/
def expand_run (inst bld : String → String → Bool) (fuel : Nat) (g : Graph)
    (run : RunType) (steps max_downstream : Int) :
    Except PassErr (Graph × List String) :=
  match upstream_dependencies_needing_build inst bld fuel g with
  | Except.error e => Except.error e
  | Except.ok (g1, _) =>
    let initD : Int := ((dirty g1).length : Int)
    if 0 ≤ steps then
      let st := stepsLoop run max_downstream initD steps.toNat g1 0
      Except.ok (st.1, dirty st.1)
    else
      match fixLoop run max_downstream initD fuel g1 0 with
      | some g2 => Except.ok (g2, dirty g2)
      | none => Except.error PassErr.fuel

/-- The graph of a successful propagation result (empty graph otherwise). -/
def resGraph (r : Except PassErr (Graph × List String)) : Graph :=
  match r with
  | Except.ok p => p.1
  | Except.error _ => { nodes := [], edges := [] }

/-- The returned list of a successful propagation result. -/
def resList (r : Except PassErr (Graph × List String)) : List String :=
  match r with
  | Except.ok p => p.2
  | Except.error _ => []

/-- Whether a propagation result is a success. -/
def isOkE (r : Except PassErr (Graph × List String)) : Bool :=
  match r with
  | Except.ok _ => true
  | Except.error _ => false

/-- A node n of rem with no incoming edge from rem (in-degree zero in the
remaining induced graph). -/
def noIncoming (E : List (String × String)) (rem : List String) (n : String) : Bool :=
  rem.all (fun m => !(decide ((m, n) ∈ E)))

/-- nx.topological_sort, fuelled: repeatedly emit a node with no incoming
edge among the remaining ones; none signals NetworkXUnfeasible (a cycle).
Called with fuel = rem.length, the fuel never runs out. -/
def topoFuel (E : List (String × String)) : Nat → List String → Option (List String)
  | 0, rem => if rem.isEmpty then some [] else none
  | f + 1, rem =>
    if rem.isEmpty then some []
    else
      match rem.find? (noIncoming E rem) with
      | none => none
      | some n => (topoFuel E f (rem.erase n)).map (fun ord => n :: ord)

/-- nx.topological_sort(G): some topological order of the node names, or
none when the graph contains a directed cycle. -/
def topological_sort (E : List (String × String)) (rem : List String) :
    Option (List String) :=
  topoFuel E rem.length rem

/-- graph.subgraph(packages): nodes restricted to the requested names with
their data, and only the edges already present between included nodes. -/
def subgraph (g : Graph) (pkgs : List String) : Graph :=
  let ns := g.nodes.filter (fun p => decide (p.1 ∈ pkgs))
  let names := ns.map Prod.fst
  { nodes := ns,
    edges := g.edges.filter (fun e =>
      decide (e.1 ∈ names) && decide (e.2 ∈ names)) }

/-- The package selection of order_build: an empty sequence (Python falsy
None or empty) means all nodes, narrowed to the dirty ones when
filter_dirty is set. -/
def selectPackages (g : Graph) (packages : List String) (filter_dirty : Bool) :
    List String :=
  if packages = [] then
    if filter_dirty then dirty g else g.nodes.map Prod.fst
  else packages

/-- order_build(graph, packages, filter_dirty): builds tmp_global, then a
reversed topological sort, so dependencies precede dependents.  On a cycle
the ValueError is raised; its message is formatted from tmp_global by
nx.find_cycle, so the error carries tmp_global here. -/
def order_build (g : Graph) (packages : List String) (filter_dirty : Bool) :
    Except Graph (Graph × List String) :=
  let pkgs := selectPackages g packages filter_dirty
  let tmp_global := subgraph g pkgs
  match topological_sort tmp_global.edges (tmp_global.nodes.map Prod.fst) with
  | none => Except.error tmp_global
  | some order => Except.ok (tmp_global, order.reverse)

/-- One recipe as rendered by conda_build.api.render for construct_graph:
its directory name, package name, version, build number, skip flag and the
two requirement dictionaries (already split into name/constraint pairs by
_deps_to_version_dict). -/
structure Rendered where
  dirName : String
  name : String
  version : String
  buildNum : Nat
  skip : Bool
  build_depends : List (String × String)
  run_test_depends : List (String × String)
deriving DecidableEq, Repr

/-- describe_meta(meta): build number, deps dictionaries and version. -/
def describe_meta (r : Rendered) : Meta :=
  { build := r.buildNum, build_depends := r.build_depends,
    run_test_depends := r.run_test_depends, version := r.version }

/-- The meta dictionary of a dependency-only placeholder node: zero build
number, empty deps, and the version constraint as given. -/
def placeholderMeta (version : String) : Meta :=
  { build := 0, run_test_depends := [], build_depends := [], version := version }

/-- run_dict of construct_graph: all flags start false and the deps_type
key is set exactly when the recipe directory is in the changed set. -/
def runDict (folders : List String) (dt : RunType) (rd : String) : Bool × Bool :=
  if rd ∈ folders then
    match dt with
    | RunType.build => (true, false)
    | RunType.test => (false, true)
  else (false, false)

/-- get_build_deps or get_run_test_deps, per the deps_type selector. -/
def selectedDeps (dt : RunType) (r : Rendered) : List (String × String) :=
  match dt with
  | RunType.build => r.build_depends
  | RunType.test => r.run_test_depends

/-- The dependency loop body of construct_graph: create a placeholder node
when the name is new, set its install flag, and add the edge from the
recipe to the dependency. -/
def addDep (name : String) (g : Graph) (dv : String × String) : Graph :=
  let g1 :=
    if (lookupN g dv.1).isSome then g
    else addNode g dv.1
      { meta := some (placeholderMeta dv.2), recipe := none,
        build := false, test := false, install := false }
  let g2 := setInstall g1 dv.1
  add_edge g2 name dv.1

/-- Replace the whole attribute record of the first entry for name n: the
else clause of construct_graph overwrites meta and recipe and then
dict-updates all three flag keys, which replaces every field. -/
def replaceNodeL (n : String) (d : NodeData) :
    List (String × NodeData) → List (String × NodeData)
  | [] => []
  | p :: rest => if p.1 == n then (p.1, d) :: rest else p :: replaceNodeL n d rest

/-- replaceNodeL on a graph. -/
def replaceNode (g : Graph) (n : String) (d : NodeData) : Graph :=
  { g with nodes := replaceNodeL n d g.nodes }

/-- One iteration of the recipe loop of construct_graph: register the node
(unless the recipe is skipped), then walk its selected dependencies. -/
def addRecipe (folders : List String) (dt : RunType) (g : Graph) (r : Rendered) :
    Graph :=
  let bt := runDict folders dt r.dirName
  let g1 :=
    if r.skip then g
    else
      match lookupN g r.name with
      | none =>
        addNode g r.name
          { meta := some (describe_meta r), recipe := some r.dirName,
            build := bt.1, test := bt.2, install := false }
      | some _ =>
        replaceNode g r.name
          { meta := some (describe_meta r), recipe := some r.dirName,
            build := bt.1, test := bt.2, install := false }
  (selectedDeps dt r).foldl (addDep r.name) g1

/-- construct_graph(directory, platform, bits, folders, deps_type): the
filesystem enumeration and metadata rendering are external, so the input
is the list of rendered recipes in directory order. -/
def construct_graph (folders : List String) (dt : RunType)
    (recipes : List Rendered) : Graph :=
  recipes.foldl (addRecipe folders dt) { nodes := [], edges := [] }

/-- _get_base_folders(base_dir, changed_files): keep the first path
component of every changed file that lives in a folder, provided
find_recipe accepts that folder (modelled by the isRecipe oracle). -/
def get_base_folders (isRecipe : String → Bool) (changed_files : List String) :
    List String :=
  changed_files.filterMap (fun f =>
    if f.contains (Char.ofNat 47) then
      let rd := ((f.splitOn "/").headD "")
      if isRecipe rd then some rd else none
    else none)

/-- git_changed_recipes(git_rev, stop_rev, git_root): the git diff-tree
call is external, so the changed-file list is an input; the result is
_get_base_folders over it. -/
def git_changed_recipes (isRecipe : String → Bool) (changed_files : List String) :
    List String :=
  get_base_folders isRecipe changed_files

/-- Well-formedness of a networkx graph: every edge endpoint is a node. -/
def EdgesClosed (g : Graph) : Prop :=
  ∀ e ∈ g.edges, e.1 ∈ g.nodes.map Prod.fst ∧ e.2 ∈ g.nodes.map Prod.fst

/-- One worklist step of Pass 1: s is a build-dependency successor of n
that the resolver reports non-installable and that is locally buildable. -/
def BadStep (inst bld : String → String → Bool) (g : Graph) (n s : String) : Prop :=
  s ∈ successors g n ∧ inst s (nodeVersion g s) = false ∧
    bld s (nodeVersion g s) = true

/-- The frame of the propagation pass between two graph states: edges and
node names are untouched, meta, recipe and install are untouched, the
build and test flags are only ever set (never cleared), and the test flag
is entirely untouched unless allowT is set. -/
def FrameLe (allowT : Bool) (g g' : Graph) : Prop :=
  g'.edges = g.edges ∧ g'.nodes.map Prod.fst = g.nodes.map Prod.fst ∧
  ∀ n d, lookupN g n = some d → ∃ d', lookupN g' n = some d' ∧
    d'.meta = d.meta ∧ d'.recipe = d.recipe ∧ d'.install = d.install ∧
    (d.build = true → d'.build = true) ∧ (d.test = true → d'.test = true) ∧
    (allowT = false → d'.test = d.test)

theorem updNodeL_map_fst (t : NodeData → NodeData) (n : String)
    (l : List (String × NodeData)) :
    (updNodeL t n l).map Prod.fst = l.map Prod.fst := by
  induction l with
  | nil => rfl
  | cons p rest ih =>
    by_cases h : (p.1 == n) = true
    · simp [updNodeL, h]
    · simp [updNodeL, h, ih]

theorem lookup_updNodeL (t : NodeData → NodeData) (n n' : String)
    (l : List (String × NodeData)) :
    ((updNodeL t n l).find? (fun p => p.1 == n')).map Prod.snd =
      if n' = n then (((l.find? (fun p => p.1 == n)).map Prod.snd).map t)
      else (l.find? (fun p => p.1 == n')).map Prod.snd := by
  induction l with
  | nil => by_cases h : n' = n <;> simp [updNodeL, h]
  | cons p rest ih =>
    by_cases hpn : (p.1 == n) = true
    · have hp : p.1 = n := by simpa using hpn
      by_cases hnn : n' = n
      · subst hnn
        simp [updNodeL, hpn, List.find?_cons_of_pos, hp]
      · have hpn' : ¬((p.1 == n') = true) := by
          simpa [hp] using fun h => hnn h.symm
        simp [updNodeL, hpn, hnn, List.find?_cons_of_neg, hpn']
    · by_cases hpn' : (p.1 == n') = true
      · have hp' : p.1 = n' := by simpa using hpn'
        have hnn : ¬(n' = n) := by
          intro h
          exact hpn (by simp [hp', h])
        simp [updNodeL, hpn, hnn, List.find?_cons_of_pos, hpn']
      · simp [updNodeL, hpn, hpn', List.find?_cons_of_neg, ih]

theorem lookupN_updNode (t : NodeData → NodeData) (n n' : String) (g : Graph) :
    lookupN (updNode t n g) n' =
      if n' = n then (lookupN g n).map t else lookupN g n' := by
  unfold lookupN updNode
  simpa using lookup_updNodeL t n n' g.nodes

theorem edges_updNode (t : NodeData → NodeData) (n : String) (g : Graph) :
    (updNode t n g).edges = g.edges := rfl

theorem nodes_map_fst_updNode (t : NodeData → NodeData) (n : String) (g : Graph) :
    (updNode t n g).nodes.map Prod.fst = g.nodes.map Prod.fst :=
  updNodeL_map_fst t n g.nodes

theorem FrameLe.refl (allowT : Bool) (g : Graph) : FrameLe allowT g g := by
  refine ⟨rfl, rfl, fun n d h => ⟨d, h, rfl, rfl, rfl, fun h => h, fun h => h, fun _ => rfl⟩⟩

theorem FrameLe.trans {allowT : Bool} {g1 g2 g3 : Graph}
    (h12 : FrameLe allowT g1 g2) (h23 : FrameLe allowT g2 g3) :
    FrameLe allowT g1 g3 := by
  obtain ⟨he12, hn12, hl12⟩ := h12
  obtain ⟨he23, hn23, hl23⟩ := h23
  refine ⟨he23.trans he12, hn23.trans hn12, fun n d h => ?_⟩
  obtain ⟨d2, hd2, hm2, hr2, hi2, hb2, ht2, htf2⟩ := hl12 n d h
  obtain ⟨d3, hd3, hm3, hr3, hi3, hb3, ht3, htf3⟩ := hl23 n d2 hd2
  exact ⟨d3, hd3, hm3.trans hm2, hr3.trans hr2, hi3.trans hi2,
    fun h => hb3 (hb2 h), fun h => ht3 (ht2 h),
    fun h => (htf3 h).trans (htf2 h)⟩

theorem FrameLe.mono_allowT {g g' : Graph} (h : FrameLe false g g') :
    ∀ allowT, FrameLe allowT g g' := by
  intro allowT
  obtain ⟨he, hn, hl⟩ := h
  refine ⟨he, hn, fun n d hd => ?_⟩
  obtain ⟨d', hd', hm, hr, hi, hb, ht, htf⟩ := hl n d hd
  exact ⟨d', hd', hm, hr, hi, hb, ht, fun _ => htf rfl⟩

theorem frameLe_updNode (allowT : Bool) (t : NodeData → NodeData) (n : String)
    (g : Graph)
    (ht : ∀ d, (t d).meta = d.meta ∧ (t d).recipe = d.recipe ∧
      (t d).install = d.install ∧ (d.build = true → (t d).build = true) ∧
      (d.test = true → (t d).test = true) ∧ (allowT = false → (t d).test = d.test)) :
    FrameLe allowT g (updNode t n g) := by
  refine ⟨edges_updNode t n g, nodes_map_fst_updNode t n g, fun n' d hd => ?_⟩
  rw [lookupN_updNode]
  by_cases hnn : n' = n
  · subst hnn
    obtain ⟨hm, hr, hi, hb, hte, htf⟩ := ht d
    exact ⟨t d, by simp [hd], hm, hr, hi, hb, hte, htf⟩
  · exact ⟨d, by simp [hnn, hd], rfl, rfl, rfl, fun h => h, fun h => h, fun _ => rfl⟩

theorem frameLe_setBuild (allowT : Bool) (g : Graph) (n : String) :
    FrameLe allowT g (setBuild g n) := by
  refine frameLe_updNode allowT _ n g (fun d => ?_)
  refine ⟨rfl, rfl, rfl, fun _ => rfl, fun h => h, fun _ => rfl⟩

theorem frameLe_setFlag_build (allowT : Bool) (g : Graph) (n : String) :
    FrameLe allowT g (setFlag RunType.build g n) :=
  frameLe_setBuild allowT g n

theorem frameLe_setFlag_test (g : Graph) (n : String) :
    FrameLe true g (setFlag RunType.test g n) := by
  refine frameLe_updNode true _ n g (fun d => ?_)
  refine ⟨rfl, rfl, rfl, fun h => h, fun _ => rfl, fun h => by cases h⟩

theorem FrameLe.successors_eq {allowT : Bool} {g g' : Graph}
    (h : FrameLe allowT g g') (n : String) :
    successors g' n = successors g n := by
  unfold successors
  rw [h.1]

theorem FrameLe.predecessors_eq {allowT : Bool} {g g' : Graph}
    (h : FrameLe allowT g g') (n : String) :
    predecessors g' n = predecessors g n := by
  unfold predecessors
  rw [h.1]

theorem lookupN_eq_none_iff (g : Graph) (n : String) :
    lookupN g n = none ↔ n ∉ g.nodes.map Prod.fst := by
  unfold lookupN
  rw [Option.map_eq_none', List.find?_eq_none]
  constructor
  · intro h hmem
    obtain ⟨p, hp, hfst⟩ := List.mem_map.mp hmem
    exact h p hp (by simpa using hfst)
  · intro h p hp hbeq
    exact h (List.mem_map.mpr ⟨p, hp, by simpa using hbeq⟩)

theorem FrameLe.lookup_none {allowT : Bool} {g g' : Graph}
    (h : FrameLe allowT g g') (n : String) :
    lookupN g' n = none ↔ lookupN g n = none := by
  rw [lookupN_eq_none_iff, lookupN_eq_none_iff, h.2.1]

theorem FrameLe.nodeVersion_eq {allowT : Bool} {g g' : Graph}
    (h : FrameLe allowT g g') (n : String) :
    nodeVersion g' n = nodeVersion g n := by
  unfold nodeVersion
  cases hg : lookupN g n with
  | none =>
    rw [(h.lookup_none n).mpr hg]
  | some d =>
    obtain ⟨d', hd', hm, _⟩ := h.2.2 n d hg
    rw [hd']
    dsimp only
    rw [hm]

theorem FrameLe.buildOf_mono {allowT : Bool} {g g' : Graph}
    (h : FrameLe allowT g g') (n : String) (hb : buildOf g n = true) :
    buildOf g' n = true := by
  unfold buildOf at *
  cases hg : lookupN g n with
  | none => rw [hg] at hb; cases hb
  | some d =>
    rw [hg] at hb
    obtain ⟨d', hd', _, _, _, hbm, _⟩ := h.2.2 n d hg
    rw [hd']
    exact hbm hb

theorem mem_successors (g : Graph) (n s : String) (h : s ∈ successors g n) :
    (n, s) ∈ g.edges := by
  unfold successors at h
  obtain ⟨e, he, hsnd⟩ := List.mem_map.mp h
  obtain ⟨hmem, hfst⟩ := List.mem_filter.mp he
  have h1 : e.1 = n := by simpa using hfst
  have : e = (n, s) := by
    cases e
    simp only [Prod.mk.injEq]
    exact ⟨h1, hsnd⟩
  rw [this] at hmem
  exact hmem

theorem buildOf_setBuild (g : Graph) (s : String) (d : NodeData)
    (hd : lookupN g s = some d) : buildOf (setBuild g s) s = true := by
  unfold buildOf setBuild
  rw [lookupN_updNode]
  simp [hd]

theorem prefix_get {w w2 : List String} (hpre : w <+: w2) (j : Nat)
    (hj : j < w.length) (hj2 : j < w2.length) :
    w2.get ⟨j, hj2⟩ = w.get ⟨j, hj⟩ := by
  obtain ⟨t, rfl⟩ := hpre
  exact List.get_append j hj

theorem processSuccs_ok (inst bld : String → String → Bool) :
    ∀ (ss : List String) (g : Graph) (work : List String) (g2 : Graph)
      (w2 : List String),
    processSuccs inst bld ss g work = Except.ok (g2, w2) →
    FrameLe false g g2 ∧ work <+: w2 := by
  intro ss
  induction ss with
  | nil =>
    intro g work g2 w2 h
    simp only [processSuccs, Except.ok.injEq, Prod.mk.injEq] at h
    obtain ⟨rfl, rfl⟩ := h
    exact ⟨FrameLe.refl false g, List.prefix_rfl⟩
  | cons s rest ih =>
    intro g work g2 w2 h
    simp only [processSuccs] at h
    by_cases hinst : inst s (nodeVersion g s) = true
    · rw [if_pos hinst] at h
      exact ih g work g2 w2 h
    · rw [if_neg hinst] at h
      by_cases hbld : bld s (nodeVersion g s) = true
      · rw [if_pos hbld] at h
        obtain ⟨hf, hp⟩ := ih (setBuild g s) (work ++ [s]) g2 w2 h
        exact ⟨(frameLe_setBuild false g s).trans hf,
          (List.prefix_append work [s]).trans hp⟩
      · rw [if_neg hbld] at h
        cases h

theorem processSuccs_spec (inst bld : String → String → Bool) :
    ∀ (ss : List String) (g : Graph) (work : List String) (g2 : Graph)
      (w2 : List String),
    processSuccs inst bld ss g work = Except.ok (g2, w2) →
    ∀ s ∈ ss, inst s (nodeVersion g s) = false →
      bld s (nodeVersion g s) = true ∧ s ∈ w2 ∧
      (∀ d, lookupN g s = some d → buildOf g2 s = true) := by
  intro ss
  induction ss with
  | nil =>
    intro g work g2 w2 _ s hs
    cases hs
  | cons s0 rest ih =>
    intro g work g2 w2 h s hs hsinst
    simp only [processSuccs] at h
    by_cases hinst : inst s0 (nodeVersion g s0) = true
    · rw [if_pos hinst] at h
      rcases List.mem_cons.mp hs with rfl | hrest
      · rw [hsinst] at hinst
        cases hinst
      · exact ih g work g2 w2 h s hrest hsinst
    · rw [if_neg hinst] at h
      by_cases hbld : bld s0 (nodeVersion g s0) = true
      · rw [if_pos hbld] at h
        have hfr : FrameLe false (setBuild g s0) g2 :=
          (processSuccs_ok inst bld rest (setBuild g s0) (work ++ [s0]) g2 w2 h).1
        have hpre : (work ++ [s0]) <+: w2 :=
          (processSuccs_ok inst bld rest (setBuild g s0) (work ++ [s0]) g2 w2 h).2
        have hfr0 : FrameLe false g (setBuild g s0) := frameLe_setBuild false g s0
        rcases List.mem_cons.mp hs with rfl | hrest
        · refine ⟨hbld, hpre.subset (by simp), fun d hd => ?_⟩
          exact hfr.buildOf_mono s (buildOf_setBuild g s d hd)
        · have hver : nodeVersion (setBuild g s0) s = nodeVersion g s :=
            hfr0.nodeVersion_eq s
          have := ih (setBuild g s0) (work ++ [s0]) g2 w2 h s hrest (by rw [hver]; exact hsinst)
          rw [hver] at this
          refine ⟨this.1, this.2.1, fun d hd => ?_⟩
          obtain ⟨d', hd', _⟩ := hfr0.2.2 s d hd
          exact this.2.2 d' hd'
      · rw [if_neg hbld] at h
        cases h

theorem pass1Go_ok (inst bld : String → String → Bool) :
    ∀ (fuel : Nat) (g : Graph) (work : List String) (i : Nat) (g' : Graph)
      (w' : List String),
    pass1Go inst bld fuel g work i = Except.ok (g', w') →
    FrameLe false g g' ∧ work <+: w' := by
  intro fuel
  induction fuel with
  | zero =>
    intro g work i g' w' h
    simp [pass1Go] at h
  | succ f ih =>
    intro g work i g' w' h
    simp only [pass1Go] at h
    split at h
    · rename_i hlen
      cases hps : processSuccs inst bld (successors g (work.get ⟨i, hlen⟩)) g work with
      | error e =>
        rw [hps] at h
        cases h
      | ok p =>
        rw [hps] at h
        obtain ⟨g2, w2⟩ := p
        obtain ⟨hf1, hp1⟩ := processSuccs_ok inst bld _ g work g2 w2 hps
        obtain ⟨hf2, hp2⟩ := ih g2 w2 (i + 1) g' w' h
        exact ⟨hf1.trans hf2, hp1.trans hp2⟩
    · simp only [Except.ok.injEq, Prod.mk.injEq] at h
      obtain ⟨rfl, rfl⟩ := h
      exact ⟨FrameLe.refl false g, List.prefix_rfl⟩

/-- The worklist positions below i have been processed: every
non-installable build-dependency successor of theirs is buildable, was
appended to the worklist, and (when it is a node at all) carries
build=True. -/
def ProcUpTo (inst bld : String → String → Bool) (g : Graph)
    (work : List String) (i : Nat) : Prop :=
  ∀ j : Nat, j < i → ∀ hj : j < work.length,
    ∀ s ∈ successors g (work.get ⟨j, hj⟩),
      inst s (nodeVersion g s) = false →
        bld s (nodeVersion g s) = true ∧ s ∈ work ∧
        (∀ d, lookupN g s = some d → buildOf g s = true)

theorem ProcUpTo.transport {inst bld : String → String → Bool}
    {g g2 : Graph} {work w2 : List String} {i : Nat}
    (hproc : ProcUpTo inst bld g work i) (hi : i ≤ work.length)
    (hfr : FrameLe false g g2) (hpre : work <+: w2) :
    ProcUpTo inst bld g2 w2 i := by
  intro j hj hj2 s hs hsinst
  have hjw : j < work.length := lt_of_lt_of_le hj hi
  have hget : w2.get ⟨j, hj2⟩ = work.get ⟨j, hjw⟩ := prefix_get hpre j hjw hj2
  rw [hget] at hs
  rw [hfr.successors_eq] at hs
  rw [hfr.nodeVersion_eq] at hsinst
  obtain ⟨hbld, hmem, hbuild⟩ := hproc j hj hjw s hs hsinst
  refine ⟨by rw [hfr.nodeVersion_eq]; exact hbld, hpre.subset hmem, fun d hd => ?_⟩
  cases hg : lookupN g s with
  | none =>
    rw [(hfr.lookup_none s).mpr hg] at hd
    cases hd
  | some d0 =>
    exact hfr.buildOf_mono s (hbuild d0 hg)

theorem pass1Go_processed (inst bld : String → String → Bool) :
    ∀ (fuel : Nat) (g : Graph) (work : List String) (i : Nat) (g' : Graph)
      (w' : List String),
    ProcUpTo inst bld g work i →
    pass1Go inst bld fuel g work i = Except.ok (g', w') →
    ProcUpTo inst bld g' w' w'.length := by
  intro fuel
  induction fuel with
  | zero =>
    intro g work i g' w' _ h
    simp [pass1Go] at h
  | succ f ih =>
    intro g work i g' w' hproc h
    simp only [pass1Go] at h
    split at h
    · rename_i hlen
      cases hps : processSuccs inst bld (successors g (work.get ⟨i, hlen⟩)) g work with
      | error e =>
        rw [hps] at h
        cases h
      | ok p =>
        rw [hps] at h
        obtain ⟨g2, w2⟩ := p
        obtain ⟨hf1, hp1⟩ := processSuccs_ok inst bld _ g work g2 w2 hps
        have hspec := processSuccs_spec inst bld _ g work g2 w2 hps
        have hnext : ProcUpTo inst bld g2 w2 (i + 1) := by
          have htrans : ProcUpTo inst bld g2 w2 i :=
            hproc.transport (le_of_lt hlen) hf1 hp1
          intro j hj hj2 s hs hsinst
          rcases Nat.lt_succ_iff_lt_or_eq.mp hj with hj' | rfl
          · exact htrans j hj' hj2 s hs hsinst
          · have hjw : j < work.length := hlen
            have hget : w2.get ⟨j, hj2⟩ = work.get ⟨j, hjw⟩ :=
              prefix_get hp1 j hjw hj2
            rw [hget] at hs
            rw [hf1.successors_eq] at hs
            rw [hf1.nodeVersion_eq] at hsinst
            obtain ⟨hbld, hmem, hbuild⟩ := hspec s hs hsinst
            refine ⟨by rw [hf1.nodeVersion_eq]; exact hbld, hmem, fun d hd => ?_⟩
            cases hg : lookupN g s with
            | none =>
              rw [(hf1.lookup_none s).mpr hg] at hd
              cases hd
            | some d0 =>
              exact hbuild d0 hg
        exact ih g2 w2 (i + 1) g' w' hnext h
    · rename_i hlen
      simp only [Except.ok.injEq, Prod.mk.injEq] at h
      obtain ⟨rfl, rfl⟩ := h
      intro j hj hj2 s hs hsinst
      exact hproc j (lt_of_lt_of_le hj (le_of_not_lt hlen)) hj2 s hs hsinst

/-- The fixed-point property of a successful Pass 1 in membership form:
every worklist member has all its non-installable build-dependency
successors buildable, marked, and themselves in the worklist. -/
theorem pass1_fixed_point (inst bld : String → String → Bool) (fuel : Nat)
    (g g' : Graph) (w' : List String)
    (hok : upstream_dependencies_needing_build inst bld fuel g =
      Except.ok (g', w')) :
    ∀ n ∈ w', ∀ s ∈ successors g' n,
      inst s (nodeVersion g' s) = false →
        bld s (nodeVersion g' s) = true ∧ s ∈ w' ∧
        (∀ d, lookupN g' s = some d → buildOf g' s = true) := by
  have hbase : ProcUpTo inst bld g (seedDirty g) 0 := by
    intro j hj
    cases hj
  have hfin := pass1Go_processed inst bld fuel g (seedDirty g) 0 g' w' hbase hok
  intro n hn s hs hsinst
  obtain ⟨⟨j, hj⟩, hget⟩ := List.mem_iff_get.mp hn
  subst hget
  exact hfin j hj hj s hs hsinst

/-- C1: after Pass 1 (upstream_dependencies_needing_build), every node
reachable from an initially dirty node (dirty via build, install or test)
through a chain of build-dependency successors that the resolver reports
non-installable and that are locally buildable has build=True in the final
graph and lies in the returned dirty set; the worklist is seeded with all
initially dirty nodes, which are all contained in the returned set. -/
theorem pass1_closure (inst bld : String → String → Bool) (fuel : Nat)
    (g g' : Graph) (w' : List String) (hwf : EdgesClosed g)
    (hok : upstream_dependencies_needing_build inst bld fuel g =
      Except.ok (g', w')) :
    (∀ n ∈ seedDirty g, n ∈ w') ∧
    (∀ n ∈ seedDirty g, ∀ s, Relation.TransGen (BadStep inst bld g) n s →
      buildOf g' s = true ∧ s ∈ w') := by
  obtain ⟨hfr, hpre⟩ := pass1Go_ok inst bld fuel g (seedDirty g) 0 g' w' hok
  have hfix := pass1_fixed_point inst bld fuel g g' w' hok
  have hstep : ∀ m s, m ∈ w' → BadStep inst bld g m s →
      buildOf g' s = true ∧ s ∈ w' := by
    intro m s hm hbs
    obtain ⟨hsucc, hinst, _⟩ := hbs
    have hsucc' : s ∈ successors g' m := by
      rw [hfr.successors_eq]
      exact hsucc
    have hinst' : inst s (nodeVersion g' s) = false := by
      rw [hfr.nodeVersion_eq]
      exact hinst
    obtain ⟨_, hmem, hbuild⟩ := hfix m hm s hsucc' hinst'
    have hedge : (m, s) ∈ g.edges := mem_successors g m s hsucc
    have hnode : s ∈ g.nodes.map Prod.fst := (hwf _ hedge).2
    have hnode' : s ∈ g'.nodes.map Prod.fst := by
      rw [hfr.2.1]
      exact hnode
    cases hlg : lookupN g' s with
    | none => exact absurd hnode' ((lookupN_eq_none_iff g' s).mp hlg)
    | some d => exact ⟨hbuild d hlg, hmem⟩
  refine ⟨fun n hn => hpre.subset hn, fun n hn s hts => ?_⟩
  induction hts with
  | single h => exact hstep n _ (hpre.subset hn) h
  | tail _ h ih => exact hstep _ _ ih.2 h

/-- The resolver oracles and graph of the C1 witness scenario: node a is
dirty, nothing is installable, and everything is locally buildable. -/
def instC1 : String → String → Bool := fun _ _ => false

/-- Locally-buildable oracle of the C1 witness scenario. -/
def bldC1 : String → String → Bool := fun _ _ => true

/-- A small node record used by concrete scenarios. -/
def mkNode (b t i : Bool) (v : String) : NodeData :=
  { meta := some { build := 0, build_depends := [], run_test_depends := [],
                   version := v },
    recipe := some "r", build := b, test := t, install := i }

/-- C1 witness graph: a is dirty and a depends on b, b on c. -/
def gC1 : Graph :=
  { nodes := [("a", mkNode true false false "1.0"),
              ("b", mkNode false false false "1.0"),
              ("c", mkNode false false false "1.0")],
    edges := [("a", "b"), ("b", "c")] }

theorem pass1_closure_witness :
    buildOf (resGraph (upstream_dependencies_needing_build instC1 bldC1 20 gC1))
        "c" = true ∧
    "c" ∈ resList (upstream_dependencies_needing_build instC1 bldC1 20 gC1) :=
  (pass1_closure instC1 bldC1 20 gC1
      (resGraph (upstream_dependencies_needing_build instC1 bldC1 20 gC1))
      (resList (upstream_dependencies_needing_build instC1 bldC1 20 gC1))
      (by unfold EdgesClosed; decide) rfl).2
    "a" (by decide) "c"
    (Relation.TransGen.tail
      (Relation.TransGen.single
        (show BadStep instC1 bldC1 gC1 "a" "b" from ⟨by decide, rfl, rfl⟩))
      (show BadStep instC1 bldC1 gC1 "b" "c" from ⟨by decide, rfl, rfl⟩))

theorem processSuccs_error (inst bld : String → String → Bool) :
    ∀ (ss : List String) (g : Graph) (work : List String) (m : String),
    processSuccs inst bld ss g work = Except.error (PassErr.unsat m) →
    ∃ s ∈ ss, m = unsatMessage s ∧ inst s (nodeVersion g s) = false ∧
      bld s (nodeVersion g s) = false := by
  intro ss
  induction ss with
  | nil =>
    intro g work m h
    cases h
  | cons s0 rest ih =>
    intro g work m h
    simp only [processSuccs] at h
    by_cases hinst : inst s0 (nodeVersion g s0) = true
    · rw [if_pos hinst] at h
      obtain ⟨s, hs, hmsg, hi, hb⟩ := ih g work m h
      exact ⟨s, List.mem_cons_of_mem s0 hs, hmsg, hi, hb⟩
    · rw [if_neg hinst] at h
      by_cases hbld : bld s0 (nodeVersion g s0) = true
      · rw [if_pos hbld] at h
        obtain ⟨s, hs, hmsg, hi, hb⟩ := ih (setBuild g s0) (work ++ [s0]) m h
        have hver : nodeVersion (setBuild g s0) s = nodeVersion g s :=
          (frameLe_setBuild false g s0).nodeVersion_eq s
        rw [hver] at hi hb
        exact ⟨s, List.mem_cons_of_mem s0 hs, hmsg, hi, hb⟩
      · rw [if_neg hbld] at h
        simp only [Except.error.injEq, PassErr.unsat.injEq] at h
        exact ⟨s0, List.mem_cons_self s0 rest, h.symm,
          by simpa using hinst, by simpa using hbld⟩

theorem pass1Go_error (inst bld : String → String → Bool) :
    ∀ (fuel : Nat) (g : Graph) (work : List String) (i : Nat) (m : String),
    pass1Go inst bld fuel g work i = Except.error (PassErr.unsat m) →
    ∃ n s, s ∈ successors g n ∧ m = unsatMessage s ∧
      inst s (nodeVersion g s) = false ∧ bld s (nodeVersion g s) = false := by
  intro fuel
  induction fuel with
  | zero =>
    intro g work i m h
    simp only [pass1Go] at h
    cases h
  | succ f ih =>
    intro g work i m h
    simp only [pass1Go] at h
    split at h
    · rename_i hlen
      cases hps : processSuccs inst bld (successors g (work.get ⟨i, hlen⟩)) g work with
      | error e =>
        rw [hps] at h
        simp only [Except.error.injEq] at h
        subst h
        obtain ⟨s, hs, hmsg, hi, hb⟩ :=
          processSuccs_error inst bld _ g work m hps
        exact ⟨work.get ⟨i, hlen⟩, s, hs, hmsg, hi, hb⟩
      | ok p =>
        rw [hps] at h
        obtain ⟨g2, w2⟩ := p
        obtain ⟨n, s, hs, hmsg, hi, hb⟩ := ih g2 w2 (i + 1) m h
        have hfr : FrameLe false g g2 :=
          (processSuccs_ok inst bld _ g work g2 w2 hps).1
        rw [hfr.successors_eq] at hs
        rw [hfr.nodeVersion_eq] at hi hb
        exact ⟨n, s, hs, hmsg, hi, hb⟩
    · cases h

/-- C6 (amended): when a dirty node has a build-dependency successor that
is neither installable nor locally buildable, Pass 1 can never complete
successfully, and whenever it aborts with the unsatisfiable-dependency
ValueError, the message is unsatMessage applied to the offending package
name: it reports the package, and nothing else is interpolated (in
particular not the required version). -/
theorem pass1_unsat_aborts (inst bld : String → String → Bool) (fuel : Nat)
    (g : Graph) (n s : String)
    (hn : n ∈ seedDirty g) (hs : s ∈ successors g n)
    (hinst : inst s (nodeVersion g s) = false)
    (hbld : bld s (nodeVersion g s) = false) :
    (∀ g' w', upstream_dependencies_needing_build inst bld fuel g ≠
      Except.ok (g', w')) ∧
    (∀ m, upstream_dependencies_needing_build inst bld fuel g =
        Except.error (PassErr.unsat m) →
      ∃ s', m = unsatMessage s' ∧ (∃ n', s' ∈ successors g n') ∧
        inst s' (nodeVersion g s') = false ∧
        bld s' (nodeVersion g s') = false) := by
  constructor
  · intro g' w' hok
    obtain ⟨hfr, hpre⟩ := pass1Go_ok inst bld fuel g (seedDirty g) 0 g' w' hok
    have hfix := pass1_fixed_point inst bld fuel g g' w' hok
    have hn' : n ∈ w' := hpre.subset hn
    have hs' : s ∈ successors g' n := by
      rw [hfr.successors_eq]
      exact hs
    have hinst' : inst s (nodeVersion g' s) = false := by
      rw [hfr.nodeVersion_eq]
      exact hinst
    obtain ⟨hbld', _⟩ := hfix n hn' s hs' hinst'
    rw [hfr.nodeVersion_eq] at hbld'
    rw [hbld] at hbld'
    cases hbld'
  · intro m hm
    obtain ⟨n', s', hsucc, hmsg, hi, hb⟩ :=
      pass1Go_error inst bld fuel g (seedDirty g) 0 m hm
    exact ⟨s', hmsg, ⟨n', hsucc⟩, hi, hb⟩

/-- Never-installable oracle of the C6 scenario. -/
def instC6 : String → String → Bool := fun _ _ => false

/-- Never-buildable oracle of the C6 scenario. -/
def bldC6 : String → String → Bool := fun _ _ => false

/-- C6 scenario graph: dirty node a requires b at version 9.9. -/
def gC6 : Graph :=
  { nodes := [("a", mkNode true false false "1.0"),
              ("b", mkNode false false false "9.9")],
    edges := [("a", "b")] }

theorem pass1_unsat_aborts_witness :
    (∀ g' w', upstream_dependencies_needing_build instC6 bldC6 20 gC6 ≠
      Except.ok (g', w')) ∧
    (∀ m, upstream_dependencies_needing_build instC6 bldC6 20 gC6 =
        Except.error (PassErr.unsat m) →
      ∃ s', m = unsatMessage s' ∧ (∃ n', s' ∈ successors gC6 n') ∧
        instC6 s' (nodeVersion gC6 s') = false ∧
        bldC6 s' (nodeVersion gC6 s') = false) :=
  pass1_unsat_aborts instC6 bldC6 20 gC6 "a" "b" (by decide) (by decide)
    rfl rfl

/-- C6 counterexample: the ValueError raised for the non-installable,
non-buildable dependency b (required at version 9.9) carries a message
that contains the package name b but not the required version 9.9 — the
version is not part of the message. -/
theorem pass1_error_message_lacks_version :
    upstream_dependencies_needing_build instC6 bldC6 20 gC6 =
      Except.error (PassErr.unsat (unsatMessage "b")) ∧
    nodeVersion gC6 "b" = "9.9" ∧
    ("b".toList <:+: (unsatMessage "b").toList) ∧
    ¬ ("9.9".toList <:+: (unsatMessage "b").toList) := by
  exact ⟨rfl, rfl, by decide, by decide⟩

/-- The flag named by the run argument at a node. -/
def flagOf (r : RunType) (g : Graph) (n : String) : Bool :=
  match r with
  | RunType.build => buildOf g n
  | RunType.test => testOf g n

theorem updNode_eq_self (t : NodeData → NodeData) (n : String) (g : Graph)
    (h : ∀ d, lookupN g n = some d → t d = d) : updNode t n g = g := by
  have : ∀ l : List (String × NodeData),
      (∀ d, (l.find? (fun p => p.1 == n)).map Prod.snd = some d → t d = d) →
      updNodeL t n l = l := by
    intro l
    induction l with
    | nil => intro _; rfl
    | cons p rest ih =>
      intro hl
      by_cases hpn : (p.1 == n) = true
      · have hd : t p.2 = p.2 := hl p.2 (by simp [List.find?_cons, hpn])
        simp [updNodeL, hpn, hd]
      · have hpn' : (p.1 == n) = false := by simpa using hpn
        have hrest : updNodeL t n rest = rest := by
          apply ih
          intro d hd
          apply hl d
          simp only [List.find?_cons, hpn']
          exact hd
        simp [updNodeL, hpn, hrest]
  cases g with
  | mk ns es =>
    have heq := this ns (by intro d hd; exact h d hd)
    simp [updNode, heq]

theorem setFlagData_id (r : RunType) (d : NodeData)
    (h : (match r with
          | RunType.build => d.build
          | RunType.test => d.test) = true) :
    setFlagData r d = d := by
  cases r <;> cases d <;> simp_all [setFlagData]

theorem setBuild_eq_self (g : Graph) (n : String) (h : buildOf g n = true) :
    setBuild g n = g := by
  apply updNode_eq_self
  intro d hd
  unfold buildOf at h
  rw [hd] at h
  have hb : d.build = true := h
  cases d
  simp_all

theorem setFlag_eq_self (r : RunType) (g : Graph) (n : String)
    (h : flagOf r g n = true) : setFlag r g n = g := by
  apply updNode_eq_self
  intro d hd
  apply setFlagData_id
  cases r with
  | build =>
    unfold flagOf buildOf at h
    rw [hd] at h
    exact h
  | test =>
    unfold flagOf testOf at h
    rw [hd] at h
    exact h

theorem anyFlagOf_mem (g : Graph) (n : String) (h : anyFlagOf g n = true) :
    n ∈ g.nodes.map Prod.fst := by
  by_contra hmem
  rw [← lookupN_eq_none_iff] at hmem
  unfold anyFlagOf at h
  rw [hmem] at h
  cases h

theorem buildOf_anyFlagOf (g : Graph) (n : String) (h : buildOf g n = true) :
    anyFlagOf g n = true := by
  unfold buildOf at h
  unfold anyFlagOf anyFlag
  cases hg : lookupN g n with
  | none => rw [hg] at h; cases h
  | some d =>
    rw [hg] at h
    have hb : d.build = true := h
    dsimp only
    rw [hb]
    rfl

theorem processSuccs_stable (inst bld : String → String → Bool) (g0 : Graph) :
    ∀ (ss : List String) (work : List String),
    (∀ s ∈ ss, inst s (nodeVersion g0 s) = true ∨
      (bld s (nodeVersion g0 s) = true ∧ buildOf g0 s = true)) →
    ∃ w2, processSuccs inst bld ss g0 work = Except.ok (g0, w2) ∧
      ∀ x ∈ w2, x ∈ work ∨ buildOf g0 x = true := by
  intro ss
  induction ss with
  | nil =>
    intro work _
    exact ⟨work, rfl, fun x hx => Or.inl hx⟩
  | cons s0 rest ih =>
    intro work hss
    by_cases hinst : inst s0 (nodeVersion g0 s0) = true
    · obtain ⟨w2, heq, hmem⟩ := ih work (fun s hs => hss s (List.mem_cons_of_mem s0 hs))
      exact ⟨w2, by simp only [processSuccs, if_pos hinst]; exact heq, hmem⟩
    · have hb : bld s0 (nodeVersion g0 s0) = true ∧ buildOf g0 s0 = true := by
        rcases hss s0 (List.mem_cons_self s0 rest) with h | h
        · exact absurd h hinst
        · exact h
      have hsb : setBuild g0 s0 = g0 := setBuild_eq_self g0 s0 hb.2
      obtain ⟨w2, heq, hmem⟩ := ih (work ++ [s0])
        (fun s hs => hss s (List.mem_cons_of_mem s0 hs))
      refine ⟨w2, ?_, ?_⟩
      · simp only [processSuccs, if_neg hinst, if_pos hb.1, hsb]
        exact heq
      · intro x hx
        rcases hmem x hx with hx' | hx'
        · rcases List.mem_append.mp hx' with hx'' | hx''
          · exact Or.inl hx''
          · have : x = s0 := by simpa using hx''
            subst this
            exact Or.inr hb.2
        · exact Or.inr hx'

theorem pass1Go_stable (inst bld : String → String → Bool) (g0 : Graph)
    (hstab : ∀ n, anyFlagOf g0 n = true → ∀ s ∈ successors g0 n,
      inst s (nodeVersion g0 s) = true ∨
        (bld s (nodeVersion g0 s) = true ∧ buildOf g0 s = true)) :
    ∀ (fuel : Nat) (work : List String) (i : Nat) (g' : Graph)
      (w' : List String),
    (∀ n ∈ work, anyFlagOf g0 n = true) →
    pass1Go inst bld fuel g0 work i = Except.ok (g', w') →
    g' = g0 := by
  intro fuel
  induction fuel with
  | zero =>
    intro work i g' w' _ h
    simp [pass1Go] at h
  | succ f ih =>
    intro work i g' w' hwork h
    simp only [pass1Go] at h
    split at h
    · rename_i hlen
      have hnode : anyFlagOf g0 (work.get ⟨i, hlen⟩) = true :=
        hwork _ (work.get_mem i hlen)
      obtain ⟨w2, heq, hmem⟩ := processSuccs_stable inst bld g0
        (successors g0 (work.get ⟨i, hlen⟩)) work
        (hstab _ hnode)
      rw [heq] at h
      apply ih w2 (i + 1) g' w' _ h
      intro n hn
      rcases hmem n hn with hn' | hn'
      · exact hwork n hn'
      · exact buildOf_anyFlagOf g0 n hn'
    · simp only [Except.ok.injEq, Prod.mk.injEq] at h
      exact h.1.symm

theorem lookupN_of_mem_nodup (g : Graph)
    (hnd : (g.nodes.map Prod.fst).Nodup) (p : String × NodeData)
    (hp : p ∈ g.nodes) : lookupN g p.1 = some p.2 := by
  have : ∀ l : List (String × NodeData), (l.map Prod.fst).Nodup → p ∈ l →
      (l.find? (fun q => q.1 == p.1)).map Prod.snd = some p.2 := by
    intro l
    induction l with
    | nil =>
      intro _ hmem
      cases hmem
    | cons q rest ih =>
      intro hnd hmem
      rcases List.mem_cons.mp hmem with rfl | hmem'
      · simp [List.find?_cons]
      · have hq : (q.1 == p.1) = false := by
          simp only [beq_eq_false_iff_ne, ne_eq]
          intro hqp
          have : p.1 ∈ rest.map Prod.fst := List.mem_map.mpr ⟨p, hmem', rfl⟩
          rw [← hqp] at this
          exact (List.nodup_cons.mp (by simpa using hnd)).1 this
        simp only [List.find?_cons, hq]
        exact ih (List.nodup_cons.mp (by simpa using hnd)).2 hmem'
  exact this g.nodes hnd hp

theorem mem_dirty_flags (g : Graph) (hnd : (g.nodes.map Prod.fst).Nodup)
    (n : String) (hn : n ∈ dirty g) :
    (buildOf g n || testOf g n) = true := by
  unfold dirty dirtyL at hn
  obtain ⟨p, hp, hfst⟩ := List.mem_map.mp hn
  obtain ⟨hmem, hflag⟩ := List.mem_filter.mp hp
  have hlk := lookupN_of_mem_nodup g hnd p hmem
  rw [hfst] at hlk
  unfold buildOf testOf
  rw [hlk]
  simpa using hflag

theorem markPreds_stable (run : RunType) (maxD initD : Int) (g0 : Graph) :
    ∀ (ps : List String) (d : Int),
    (∀ p ∈ ps, flagOf run g0 p = true) →
    (markPreds run maxD initD ps g0 d).1 = g0 := by
  intro ps
  induction ps with
  | nil => intro d _; rfl
  | cons p rest ih =>
    intro d hps
    have hset : setFlag run g0 p = g0 :=
      setFlag_eq_self run g0 p (hps p (List.mem_cons_self p rest))
    by_cases hc : maxD < 0 ∨ d - initD < maxD
    · simp only [markPreds, if_pos hc, hset]
      exact ih (d + 1) (fun q hq => hps q (List.mem_cons_of_mem p hq))
    · simp only [markPreds, if_neg hc]
      exact ih d (fun q hq => hps q (List.mem_cons_of_mem p hq))

theorem expandStepCore_stable (run : RunType) (maxD initD : Int) (g0 : Graph) :
    ∀ (ns : List String) (d : Int),
    (∀ n ∈ ns, ∀ p ∈ predecessors g0 n, flagOf run g0 p = true) →
    (expandStepCore run maxD initD ns g0 d).1 = g0 := by
  intro ns
  induction ns with
  | nil => intro d _; rfl
  | cons n rest ih =>
    intro d hns
    simp only [expandStepCore]
    have hmark : (markPreds run maxD initD (predecessors g0 n) g0 d).1 = g0 :=
      markPreds_stable run maxD initD g0 (predecessors g0 n) d
        (hns n (List.mem_cons_self n rest))
    rw [hmark]
    exact ih _ (fun m hm => hns m (List.mem_cons_of_mem n hm))

theorem expand_step_stable (run : RunType) (maxD initD : Int) (g0 : Graph)
    (d : Int)
    (hdown : ∀ n ∈ dirty g0, ∀ p ∈ predecessors g0 n, flagOf run g0 p = true) :
    expand_step run maxD initD (dirty g0) g0 d =
      ((g0 : Graph), ((dirty g0).length : Int)) := by
  unfold expand_step
  have hcore := expandStepCore_stable run maxD initD g0 (dirty g0) d hdown
  simp [hcore]

theorem stepsLoop_stable (run : RunType) (maxD initD : Int) (g0 : Graph)
    (hdown : ∀ n ∈ dirty g0, ∀ p ∈ predecessors g0 n, flagOf run g0 p = true) :
    ∀ (k : Nat) (d : Int), (stepsLoop run maxD initD k g0 d).1 = g0 := by
  intro k
  induction k with
  | zero => intro d; rfl
  | succ k ih =>
    intro d
    simp only [stepsLoop]
    rw [expand_step_stable run maxD initD g0 d hdown]
    exact ih _

theorem expand_run_ok_eq (inst bld : String → String → Bool) (fuel : Nat)
    (g : Graph) (run : RunType) (steps maxD : Int) (g1 : Graph)
    (w1 : List String)
    (hup : upstream_dependencies_needing_build inst bld fuel g =
      Except.ok (g1, w1)) :
    expand_run inst bld fuel g run steps maxD =
      (if 0 ≤ steps then
        Except.ok
          ((stepsLoop run maxD ((dirty g1).length : Int) steps.toNat g1 0).1,
           dirty (stepsLoop run maxD ((dirty g1).length : Int) steps.toNat g1 0).1)
      else
        match fixLoop run maxD ((dirty g1).length : Int) fuel g1 0 with
        | some g2 => Except.ok (g2, dirty g2)
        | none => Except.error PassErr.fuel) := by
  unfold expand_run
  rw [hup]

theorem expand_run_err_eq (inst bld : String → String → Bool) (fuel : Nat)
    (g : Graph) (run : RunType) (steps maxD : Int) (e : PassErr)
    (hup : upstream_dependencies_needing_build inst bld fuel g =
      Except.error e) :
    expand_run inst bld fuel g run steps maxD = Except.error e := by
  unfold expand_run
  rw [hup]

/-- C7: re-running propagation on an already-stable graph changes nothing.
Stability is structural: every flagged node's non-installable successors
are already buildable and build-marked (so Pass 1 can add nothing), and
every dirty node's predecessors already carry the target flag (so the
downstream pass can add nothing).  Then a successful expand_run returns
the graph unchanged and the dirty set it had before. -/
theorem expand_run_stable (inst bld : String → String → Bool) (fuel : Nat)
    (g : Graph) (run : RunType) (steps maxD : Int) (g' : Graph)
    (d' : List String)
    (hnd : (g.nodes.map Prod.fst).Nodup)
    (hstab : ∀ n ∈ g.nodes.map Prod.fst, anyFlagOf g n = true →
      ∀ s ∈ successors g n, inst s (nodeVersion g s) = true ∨
        (bld s (nodeVersion g s) = true ∧ buildOf g s = true))
    (hdown : ∀ n ∈ dirty g, ∀ p ∈ predecessors g n, flagOf run g p = true)
    (hok : expand_run inst bld fuel g run steps maxD = Except.ok (g', d')) :
    g' = g ∧ d' = dirty g := by
  have hstab' : ∀ n, anyFlagOf g n = true → ∀ s ∈ successors g n,
      inst s (nodeVersion g s) = true ∨
        (bld s (nodeVersion g s) = true ∧ buildOf g s = true) :=
    fun n hn => hstab n (anyFlagOf_mem g n hn) hn
  cases hup : upstream_dependencies_needing_build inst bld fuel g with
  | error e =>
    rw [expand_run_err_eq inst bld fuel g run steps maxD e hup] at hok
    cases hok
  | ok p =>
    obtain ⟨g1, w1⟩ := p
    rw [expand_run_ok_eq inst bld fuel g run steps maxD g1 w1 hup] at hok
    have hseed : ∀ n ∈ seedDirty g, anyFlagOf g n = true := by
      intro n hn
      unfold seedDirty at hn
      obtain ⟨q, hq, hfst⟩ := List.mem_map.mp hn
      obtain ⟨hmem, hflag⟩ := List.mem_filter.mp hq
      have hlk := lookupN_of_mem_nodup g hnd q hmem
      rw [hfst] at hlk
      unfold anyFlagOf
      rw [hlk]
      simpa using hflag
    have hg1 : g1 = g :=
      pass1Go_stable inst bld g hstab' fuel (seedDirty g) 0 g1 w1 hseed hup
    subst hg1
    by_cases hsteps : 0 ≤ steps
    · rw [if_pos hsteps] at hok
      have hloop := stepsLoop_stable run maxD ((dirty g1).length : Int) g1
        hdown steps.toNat 0
      rw [hloop] at hok
      simp only [Except.ok.injEq, Prod.mk.injEq] at hok
      exact ⟨hok.1.symm, hok.2.symm⟩
    · rw [if_neg hsteps] at hok
      cases fuel with
      | zero =>
        simp [fixLoop] at hok
      | succ f =>
        simp only [fixLoop] at hok
        rw [expand_step_stable run maxD ((dirty g1).length : Int) g1 0 hdown]
          at hok
        simp at hok
        exact ⟨hok.1.symm, hok.2.symm⟩

/-- Everything-installable oracle of the C7 witness scenario. -/
def instC7 : String → String → Bool := fun _ _ => true

/-- Buildable oracle of the C7 scenario (irrelevant there). -/
def bldC7 : String → String → Bool := fun _ _ => false

/-- C7 witness graph, already stable for run=build: a is build-dirty, b is
test-dirty, a depends on b, and the only predecessor of a dirty node (a,
of b) already carries the build flag. -/
def gC7 : Graph :=
  { nodes := [("a", mkNode true false false "1.0"),
              ("b", mkNode false true false "1.0")],
    edges := [("a", "b")] }

theorem expand_run_stable_witness :
    resGraph (expand_run instC7 bldC7 20 gC7 RunType.build (-1) 5) = gC7 ∧
    resList (expand_run instC7 bldC7 20 gC7 RunType.build (-1) 5) = dirty gC7 :=
  expand_run_stable instC7 bldC7 20 gC7 RunType.build (-1) 5
    (resGraph (expand_run instC7 bldC7 20 gC7 RunType.build (-1) 5))
    (resList (expand_run instC7 bldC7 20 gC7 RunType.build (-1) 5))
    (by decide) (by decide) (by decide) rfl

/-- Whether the run argument targets the test flag (the only case in which
the downstream pass may change a test flag). -/
def allowTest (run : RunType) : Bool :=
  match run with
  | RunType.build => false
  | RunType.test => true

theorem frameLe_setFlag (run : RunType) (g : Graph) (n : String) :
    FrameLe (allowTest run) g (setFlag run g n) := by
  cases run
  · exact frameLe_setFlag_build (allowTest RunType.build) g n
  · exact frameLe_setFlag_test g n

theorem markPreds_frame (run : RunType) (maxD initD : Int) :
    ∀ (ps : List String) (g : Graph) (d : Int),
    FrameLe (allowTest run) g (markPreds run maxD initD ps g d).1 := by
  intro ps
  induction ps with
  | nil => intro g d; exact FrameLe.refl _ g
  | cons p rest ih =>
    intro g d
    by_cases hc : maxD < 0 ∨ d - initD < maxD
    · simp only [markPreds, if_pos hc]
      exact (frameLe_setFlag run g p).trans (ih _ _)
    · simp only [markPreds, if_neg hc]
      exact ih _ _

theorem expandStepCore_frame (run : RunType) (maxD initD : Int) :
    ∀ (ns : List String) (g : Graph) (d : Int),
    FrameLe (allowTest run) g (expandStepCore run maxD initD ns g d).1 := by
  intro ns
  induction ns with
  | nil => intro g d; exact FrameLe.refl _ g
  | cons n rest ih =>
    intro g d
    simp only [expandStepCore]
    exact (markPreds_frame run maxD initD (predecessors g n) g d).trans (ih _ _)

theorem expand_step_frame (run : RunType) (maxD initD : Int)
    (dns : List String) (g : Graph) (d : Int) :
    FrameLe (allowTest run) g (expand_step run maxD initD dns g d).1 :=
  expandStepCore_frame run maxD initD dns g d

theorem stepsLoop_frame (run : RunType) (maxD initD : Int) :
    ∀ (k : Nat) (g : Graph) (d : Int),
    FrameLe (allowTest run) g (stepsLoop run maxD initD k g d).1 := by
  intro k
  induction k with
  | zero => intro g d; exact FrameLe.refl _ g
  | succ k ih =>
    intro g d
    simp only [stepsLoop]
    exact (expand_step_frame run maxD initD (dirty g) g d).trans (ih _ _)

theorem fixLoop_frame (run : RunType) (maxD initD : Int) :
    ∀ (f : Nat) (g : Graph) (d : Int) (g2 : Graph),
    fixLoop run maxD initD f g d = some g2 →
    FrameLe (allowTest run) g g2 := by
  intro f
  induction f with
  | zero =>
    intro g d g2 h
    cases h
  | succ f ih =>
    intro g d g2 h
    simp only [fixLoop] at h
    split at h
    · cases h
      exact expand_step_frame run maxD initD (dirty g) g d
    · exact (expand_step_frame run maxD initD (dirty g) g d).trans (ih _ _ _ h)

/-- C10: a successful expand_run (Pass 1 included) leaves the node set,
the edge set and every node's meta, recipe and install attributes
unchanged; its only mutations set the build flag or the target flag of
already-existing nodes to true (flags are never cleared, and the test
flag is untouched unless run = test); the returned list is the dirty view
of the final graph. -/
theorem expand_run_frame (inst bld : String → String → Bool) (fuel : Nat)
    (g : Graph) (run : RunType) (steps maxD : Int) (g' : Graph)
    (d' : List String)
    (hok : expand_run inst bld fuel g run steps maxD = Except.ok (g', d')) :
    FrameLe (allowTest run) g g' ∧ d' = dirty g' := by
  cases hup : upstream_dependencies_needing_build inst bld fuel g with
  | error e =>
    rw [expand_run_err_eq inst bld fuel g run steps maxD e hup] at hok
    cases hok
  | ok p =>
    obtain ⟨g1, w1⟩ := p
    rw [expand_run_ok_eq inst bld fuel g run steps maxD g1 w1 hup] at hok
    have hfr1 : FrameLe (allowTest run) g g1 :=
      FrameLe.mono_allowT
        (pass1Go_ok inst bld fuel g (seedDirty g) 0 g1 w1 hup).1 _
    by_cases hsteps : 0 ≤ steps
    · rw [if_pos hsteps] at hok
      simp only [Except.ok.injEq, Prod.mk.injEq] at hok
      refine ⟨?_, ?_⟩
      · rw [← hok.1]
        exact hfr1.trans
          (stepsLoop_frame run maxD ((dirty g1).length : Int) steps.toNat g1 0)
      · rw [← hok.2, hok.1]
    · rw [if_neg hsteps] at hok
      cases hfix : fixLoop run maxD ((dirty g1).length : Int) fuel g1 0 with
      | none =>
        rw [hfix] at hok
        cases hok
      | some g2 =>
        rw [hfix] at hok
        simp only [Except.ok.injEq, Prod.mk.injEq] at hok
        refine ⟨?_, ?_⟩
        · rw [← hok.1]
          exact hfr1.trans
            (fixLoop_frame run maxD ((dirty g1).length : Int) fuel g1 0 g2 hfix)
        · rw [← hok.2, hok.1]

/-- Everything-installable oracle of the C10 witness scenario. -/
def instC10 : String → String → Bool := fun _ _ => true

/-- Buildable oracle of the C10 witness scenario. -/
def bldC10 : String → String → Bool := fun _ _ => false

/-- C10 witness graph: a is build-dirty and b depends on a. -/
def gC10 : Graph :=
  { nodes := [("a", mkNode true false false "1.0"),
              ("b", mkNode false false false "1.0")],
    edges := [("b", "a")] }

theorem isDirty_setFlagData (r : RunType) (d : NodeData) :
    ((setFlagData r d).build || (setFlagData r d).test) = true := by
  cases r <;> cases d <;> simp [setFlagData]

theorem dirtyL_cons (p : String × NodeData) (rest : List (String × NodeData)) :
    dirtyL (p :: rest) =
      if (p.2.build || p.2.test) = true then p.1 :: dirtyL rest
      else dirtyL rest := by
  unfold dirtyL
  rw [List.filter_cons]
  split <;> simp

theorem dirtyL_setFlagL (r : RunType) (n : String) :
    ∀ l : List (String × NodeData),
    List.Sublist (dirtyL l) (dirtyL (updNodeL (setFlagData r) n l)) ∧
    (dirtyL (updNodeL (setFlagData r) n l)).length ≤ (dirtyL l).length + 1 := by
  intro l
  induction l with
  | nil => exact ⟨List.Sublist.refl _, by simp [updNodeL]⟩
  | cons p rest ih =>
    by_cases hpn : (p.1 == n) = true
    · have hupd : updNodeL (setFlagData r) n (p :: rest) =
          (p.1, setFlagData r p.2) :: rest := by
        simp [updNodeL, hpn]
      rw [hupd, dirtyL_cons, dirtyL_cons]
      rw [if_pos (isDirty_setFlagData r p.2)]
      by_cases hd : (p.2.build || p.2.test) = true
      · rw [if_pos hd]
        exact ⟨List.Sublist.refl _, by simp⟩
      · rw [if_neg hd]
        exact ⟨List.sublist_cons_self _ _, by simp⟩
    · have hupd : updNodeL (setFlagData r) n (p :: rest) =
          p :: updNodeL (setFlagData r) n rest := by
        simp [updNodeL, hpn]
      rw [hupd, dirtyL_cons, dirtyL_cons]
      by_cases hd : (p.2.build || p.2.test) = true
      · rw [if_pos hd, if_pos hd]
        exact ⟨ih.1.cons₂ p.1, by simpa using ih.2⟩
      · rw [if_neg hd, if_neg hd]
        exact ih

theorem dirty_setFlag_sub (r : RunType) (g : Graph) (n : String) :
    List.Sublist (dirty g) (dirty (setFlag r g n)) :=
  (dirtyL_setFlagL r n g.nodes).1

theorem dirty_setFlag_len (r : RunType) (g : Graph) (n : String) :
    (dirty (setFlag r g n)).length ≤ (dirty g).length + 1 :=
  (dirtyL_setFlagL r n g.nodes).2

theorem markPreds_count (run : RunType) (maxD initD : Int) (hmaxD : 0 ≤ maxD) :
    ∀ (ps : List String) (g : Graph) (d : Int),
    d ≤ (markPreds run maxD initD ps g d).2 ∧
    ((dirty (markPreds run maxD initD ps g d).1).length : Int) ≤
      ((dirty g).length : Int) + ((markPreds run maxD initD ps g d).2 - d) ∧
    (markPreds run maxD initD ps g d).2 ≤ max d (initD + maxD) ∧
    List.Sublist (dirty g) (dirty (markPreds run maxD initD ps g d).1) := by
  intro ps
  induction ps with
  | nil =>
    intro g d
    exact ⟨le_refl d, by simp [markPreds], le_max_left d _, List.Sublist.refl _⟩
  | cons p rest ih =>
    intro g d
    by_cases hc : maxD < 0 ∨ d - initD < maxD
    · have hc2 : d - initD < maxD := by
        rcases hc with h | h
        · omega
        · exact h
      simp only [markPreds, if_pos hc]
      obtain ⟨h1, h2, h3, h4⟩ := ih (setFlag run g p) (d + 1)
      have hlen : ((dirty (setFlag run g p)).length : Int) ≤
          ((dirty g).length : Int) + 1 := by
        exact_mod_cast dirty_setFlag_len run g p
      have hsub := dirty_setFlag_sub run g p
      exact ⟨by omega, by omega, by omega, hsub.trans h4⟩
    · simp only [markPreds, if_neg hc]
      exact ih g d

theorem expandStepCore_count (run : RunType) (maxD initD : Int)
    (hmaxD : 0 ≤ maxD) :
    ∀ (ns : List String) (g : Graph) (d : Int),
    d ≤ (expandStepCore run maxD initD ns g d).2 ∧
    ((dirty (expandStepCore run maxD initD ns g d).1).length : Int) ≤
      ((dirty g).length : Int) + ((expandStepCore run maxD initD ns g d).2 - d) ∧
    (expandStepCore run maxD initD ns g d).2 ≤ max d (initD + maxD) ∧
    List.Sublist (dirty g) (dirty (expandStepCore run maxD initD ns g d).1) := by
  intro ns
  induction ns with
  | nil =>
    intro g d
    exact ⟨le_refl d, by simp [expandStepCore], le_max_left d _, List.Sublist.refl _⟩
  | cons m rest ih =>
    intro g d
    simp only [expandStepCore]
    obtain ⟨m1, m2, m3, m4⟩ := markPreds_count run maxD initD hmaxD
      (predecessors g m) g d
    obtain ⟨h1, h2, h3, h4⟩ := ih (markPreds run maxD initD (predecessors g m) g d).1
      (markPreds run maxD initD (predecessors g m) g d).2
    exact ⟨by omega, by omega, by omega, m4.trans h4⟩

theorem expand_step_phi (run : RunType) (maxD initD : Int) (hmaxD : 0 ≤ maxD)
    (dns : List String) (g : Graph) (d : Int)
    (hd : d ≤ ((dirty g).length : Int)) :
    List.Sublist (dirty g) (dirty (expand_step run maxD initD dns g d).1) ∧
    ((dirty (expand_step run maxD initD dns g d).1).length : Int) +
        max 0 (initD + maxD - (expand_step run maxD initD dns g d).2) ≤
      ((dirty g).length : Int) + max 0 (initD + maxD - d) := by
  obtain ⟨h1, h2, h3, h4⟩ := expandStepCore_count run maxD initD hmaxD dns g d
  have hsnd : (expand_step run maxD initD dns g d).2 =
      ((dirty (expand_step run maxD initD dns g d).1).length : Int) := rfl
  have hfst : (expand_step run maxD initD dns g d).1 =
      (expandStepCore run maxD initD dns g d).1 := rfl
  constructor
  · rw [hfst]
    exact h4
  · rw [hsnd, hfst]
    omega

theorem fixLoop_bound (run : RunType) (maxD initD : Int) (hmaxD : 0 ≤ maxD) :
    ∀ (f : Nat) (g : Graph) (d : Int) (g2 : Graph),
    d ≤ ((dirty g).length : Int) →
    fixLoop run maxD initD f g d = some g2 →
    List.Sublist (dirty g) (dirty g2) ∧
    ((dirty g2).length : Int) ≤
      ((dirty g).length : Int) + max 0 (initD + maxD - d) := by
  intro f
  induction f with
  | zero =>
    intro g d g2 hd h
    cases h
  | succ f ih =>
    intro g d g2 hd h
    simp only [fixLoop] at h
    obtain ⟨hsub, hphi⟩ := expand_step_phi run maxD initD hmaxD (dirty g) g d hd
    split at h
    · rename_i heq
      injection h with h
      subst h
      refine ⟨hsub, ?_⟩
      have hlen : ((dirty (expand_step run maxD initD (dirty g) g d).1).length : Int) =
          ((dirty g).length : Int) := by
        rw [heq]
      omega
    · rename_i hne
      have hd2 : (expand_step run maxD initD (dirty g) g d).2 ≤
          ((dirty (expand_step run maxD initD (dirty g) g d).1).length : Int) :=
        le_of_eq rfl
      obtain ⟨hsub2, hbound2⟩ :=
        ih (expand_step run maxD initD (dirty g) g d).1
          (expand_step run maxD initD (dirty g) g d).2 g2 hd2 h
      refine ⟨hsub.trans hsub2, ?_⟩
      have hsnd : (expand_step run maxD initD (dirty g) g d).2 =
          ((dirty (expand_step run maxD initD (dirty g) g d).1).length : Int) := rfl
      omega

/-- C2 (amended): with steps = -1 and cap k at least 0, the downstream
pass marks at most initial_dirty + k nodes that were not dirty at the
baseline recorded right after Pass 1 (not k, as the counter starts from
zero rather than from the baseline, granting the first layer an extra
allowance of exactly the baseline size); the baseline dirty set only
grows. -/
theorem expand_run_downstream_bound (inst bld : String → String → Bool)
    (fuel : Nat) (g : Graph) (run : RunType) (k : Int) (g1 : Graph)
    (w1 : List String) (g' : Graph) (d' : List String)
    (hk : 0 ≤ k)
    (hup : upstream_dependencies_needing_build inst bld fuel g =
      Except.ok (g1, w1))
    (hok : expand_run inst bld fuel g run (-1) k = Except.ok (g', d')) :
    List.Sublist (dirty g1) (dirty g') ∧
    ((dirty g').length : Int) - ((dirty g1).length : Int) ≤
      ((dirty g1).length : Int) + k := by
  rw [expand_run_ok_eq inst bld fuel g run (-1) k g1 w1 hup] at hok
  rw [if_neg (by omega)] at hok
  cases hfix : fixLoop run k ((dirty g1).length : Int) fuel g1 0 with
  | none =>
    rw [hfix] at hok
    cases hok
  | some g2 =>
    rw [hfix] at hok
    simp only [Except.ok.injEq, Prod.mk.injEq] at hok
    obtain ⟨hg, _⟩ := hok
    subst hg
    obtain ⟨hsub, hbound⟩ := fixLoop_bound run k ((dirty g1).length : Int) hk
      fuel g1 0 g2 (by positivity) hfix
    exact ⟨hsub, by omega⟩

/-- Oracles of the C2 scenario: everything installable. -/
def instC2 : String → String → Bool := fun _ _ => true

/-- Buildable oracle of the C2 scenario. -/
def bldC2 : String → String → Bool := fun _ _ => true

/-- C2 scenario graph: a is build-dirty and b depends on a. -/
def gC2 : Graph :=
  { nodes := [("a", mkNode true false false "1.0"),
              ("b", mkNode false false false "1.0")],
    edges := [("b", "a")] }

/-- C2 counterexample: with max_downstream = 0 and steps = -1 the claim
says no new node may be marked, yet the pass succeeds, the baseline dirty
set after Pass 1 has one node, and the final dirty set has two — one new
node was marked because the counter starts at zero instead of at the
baseline. -/
theorem expand_run_cap_exceeded :
    isOkE (expand_run instC2 bldC2 20 gC2 RunType.test (-1) 0) = true ∧
    (dirty (resGraph
      (upstream_dependencies_needing_build instC2 bldC2 20 gC2))).length = 1 ∧
    (dirty (resGraph (expand_run instC2 bldC2 20 gC2 RunType.test (-1) 0))).length
      = 2 :=
  ⟨rfl, rfl, rfl⟩

theorem expand_run_downstream_bound_witness :
    List.Sublist
      (dirty (resGraph (upstream_dependencies_needing_build instC2 bldC2 20 gC2)))
      (dirty (resGraph (expand_run instC2 bldC2 20 gC2 RunType.test (-1) 0))) ∧
    ((dirty (resGraph (expand_run instC2 bldC2 20 gC2 RunType.test (-1) 0))).length : Int) -
        ((dirty (resGraph
          (upstream_dependencies_needing_build instC2 bldC2 20 gC2))).length : Int) ≤
      ((dirty (resGraph
        (upstream_dependencies_needing_build instC2 bldC2 20 gC2))).length : Int) + 0 :=
  expand_run_downstream_bound instC2 bldC2 20 gC2 RunType.test 0
    (resGraph (upstream_dependencies_needing_build instC2 bldC2 20 gC2))
    (resList (upstream_dependencies_needing_build instC2 bldC2 20 gC2))
    (resGraph (expand_run instC2 bldC2 20 gC2 RunType.test (-1) 0))
    (resList (expand_run instC2 bldC2 20 gC2 RunType.test (-1) 0))
    (by omega) (by rfl) (by rfl)

theorem expand_run_frame_witness :
    FrameLe (allowTest RunType.test) gC10
      (resGraph (expand_run instC10 bldC10 20 gC10 RunType.test (-1) 5)) ∧
    resList (expand_run instC10 bldC10 20 gC10 RunType.test (-1) 5) =
      dirty (resGraph (expand_run instC10 bldC10 20 gC10 RunType.test (-1) 5)) :=
  expand_run_frame instC10 bldC10 20 gC10 RunType.test (-1) 5
    (resGraph (expand_run instC10 bldC10 20 gC10 RunType.test (-1) 5))
    (resList (expand_run instC10 bldC10 20 gC10 RunType.test (-1) 5))
    rfl

theorem noIncoming_spec {E : List (String × String)} {rem : List String}
    {n : String} (h : noIncoming E rem n = true) :
    ∀ m ∈ rem, (m, n) ∉ E := by
  intro m hm
  unfold noIncoming at h
  have := List.all_eq_true.mp h m hm
  simpa using this

theorem topoFuel_perm (E : List (String × String)) :
    ∀ (f : Nat) (rem ord : List String),
    topoFuel E f rem = some ord → ord.Perm rem := by
  intro f
  induction f with
  | zero =>
    intro rem ord h
    simp only [topoFuel] at h
    split at h
    · rename_i hemp
      simp only [Option.some.injEq] at h
      subst h
      rw [List.isEmpty_iff.mp hemp]
    · cases h
  | succ f ih =>
    intro rem ord h
    simp only [topoFuel] at h
    split at h
    · rename_i hemp
      simp only [Option.some.injEq] at h
      subst h
      rw [List.isEmpty_iff.mp hemp]
    · rename_i hemp
      cases hf : rem.find? (noIncoming E rem) with
      | none =>
        rw [hf] at h
        cases h
      | some n =>
        rw [hf] at h
        obtain ⟨ord', hord', rfl⟩ := Option.map_eq_some'.mp h
        have hmem : n ∈ rem := List.mem_of_find?_eq_some hf
        exact ((ih (rem.erase n) ord' hord').cons n).trans
          (List.perm_cons_erase hmem).symm

theorem topoFuel_order_sub (E : List (String × String)) :
    ∀ (f : Nat) (rem ord : List String),
    topoFuel E f rem = some ord →
    ∀ u v, (u, v) ∈ E → u ∈ rem → v ∈ rem →
    List.Sublist [u, v] ord := by
  intro f
  induction f with
  | zero =>
    intro rem ord h u v _ _ hv
    simp only [topoFuel] at h
    split at h
    · rename_i hemp
      rw [List.isEmpty_iff.mp hemp] at hv
      cases hv
    · cases h
  | succ f ih =>
    intro rem ord h u v huv hu hv
    simp only [topoFuel] at h
    split at h
    · rename_i hemp
      rw [List.isEmpty_iff.mp hemp] at hv
      cases hv
    · rename_i hemp
      cases hf : rem.find? (noIncoming E rem) with
      | none =>
        rw [hf] at h
        cases h
      | some n =>
        rw [hf] at h
        obtain ⟨ord', hord', rfl⟩ := Option.map_eq_some'.mp h
        have hpred : noIncoming E rem n = true := List.find?_some hf
        have hvn : v ≠ n := by
          intro hvn
          subst hvn
          exact noIncoming_spec hpred u hu huv
        by_cases hun : u = n
        · subst hun
          have hvord : v ∈ ord' := by
            have : v ∈ rem.erase u := (List.mem_erase_of_ne hvn).mpr hv
            exact ((topoFuel_perm E f (rem.erase u) ord' hord').mem_iff).mpr this
          exact (List.singleton_sublist.mpr hvord).cons₂ u
        · have hu' : u ∈ rem.erase n := (List.mem_erase_of_ne hun).mpr hu
          have hv' : v ∈ rem.erase n := (List.mem_erase_of_ne hvn).mpr hv
          exact (ih (rem.erase n) ord' hord' u v huv hu' hv').cons n

theorem topoFuel_order_idx (E : List (String × String)) :
    ∀ (f : Nat) (rem ord : List String),
    topoFuel E f rem = some ord →
    ∀ u v, (u, v) ∈ E → u ∈ rem → v ∈ rem →
    ord.indexOf u < ord.indexOf v := by
  intro f
  induction f with
  | zero =>
    intro rem ord h u v _ _ hv
    simp only [topoFuel] at h
    split at h
    · rename_i hemp
      rw [List.isEmpty_iff.mp hemp] at hv
      cases hv
    · cases h
  | succ f ih =>
    intro rem ord h u v huv hu hv
    simp only [topoFuel] at h
    split at h
    · rename_i hemp
      rw [List.isEmpty_iff.mp hemp] at hv
      cases hv
    · rename_i hemp
      cases hf : rem.find? (noIncoming E rem) with
      | none =>
        rw [hf] at h
        cases h
      | some n =>
        rw [hf] at h
        obtain ⟨ord', hord', rfl⟩ := Option.map_eq_some'.mp h
        have hpred : noIncoming E rem n = true := List.find?_some hf
        have hvn : v ≠ n := by
          intro hvn
          subst hvn
          exact noIncoming_spec hpred u hu huv
        have hvidx : (n :: ord').indexOf v = ord'.indexOf v + 1 :=
          List.indexOf_cons_ne ord' (fun h => hvn h.symm)
        by_cases hun : u = n
        · subst hun
          rw [List.indexOf_cons_self, hvidx]
          exact Nat.succ_pos _
        · have hu' : u ∈ rem.erase n := (List.mem_erase_of_ne hun).mpr hu
          have hv' : v ∈ rem.erase n := (List.mem_erase_of_ne hvn).mpr hv
          have huidx : (n :: ord').indexOf u = ord'.indexOf u + 1 :=
            List.indexOf_cons_ne ord' (fun h => hun h.symm)
          rw [huidx, hvidx]
          exact Nat.succ_lt_succ (ih (rem.erase n) ord' hord' u v huv hu' hv')

theorem exists_cycle_of_no_source (E : List (String × String))
    (rem : List String) (hne : rem ≠ [])
    (hall : ∀ n ∈ rem, ∃ m ∈ rem, (m, n) ∈ E) :
    ∃ z, Relation.TransGen (fun a b => (a, b) ∈ E ∧ a ∈ rem ∧ b ∈ rem) z z := by
  obtain ⟨x0, hx0⟩ := List.exists_mem_of_ne_nil rem hne
  choose f hf1 hf2 using hall
  have hstepdef : ∀ p : {x // x ∈ rem}, (⟨f p.1 p.2, hf1 p.1 p.2⟩ : {x // x ∈ rem}) =
      ⟨f p.1 p.2, hf1 p.1 p.2⟩ := fun _ => rfl
  let step : {x // x ∈ rem} → {x // x ∈ rem} := fun p => ⟨f p.1 p.2, hf1 p.1 p.2⟩
  let ys : Nat → {x // x ∈ rem} := fun k => step^[k] ⟨x0, hx0⟩
  have hstep : ∀ k, ((ys (k + 1)).1, (ys k).1) ∈ E := by
    intro k
    have hit : ys (k + 1) = step (ys k) := Function.iterate_succ_apply' step k _
    rw [hit]
    exact hf2 (ys k).1 (ys k).2
  have hchain : ∀ d k, Relation.TransGen
      (fun a b => (a, b) ∈ E ∧ a ∈ rem ∧ b ∈ rem) (ys (k + d + 1)).1 (ys k).1 := by
    intro d
    induction d with
    | zero =>
      intro k
      exact Relation.TransGen.single ⟨hstep k, (ys (k + 1)).2, (ys k).2⟩
    | succ d ihd =>
      intro k
      have h1 := ihd (k + 1)
      have heqk : k + 1 + d + 1 = k + (d + 1) + 1 := by omega
      rw [heqk] at h1
      exact h1.tail ⟨hstep k, (ys (k + 1)).2, (ys k).2⟩
  have hmaps : ∀ a ∈ Finset.range (rem.length + 1),
      (ys a).1 ∈ rem.toFinset := by
    intro a _
    exact List.mem_toFinset.mpr (ys a).2
  have hcard : rem.toFinset.card < (Finset.range (rem.length + 1)).card := by
    rw [Finset.card_range]
    exact Nat.lt_succ_of_le (List.toFinset_card_le rem)
  obtain ⟨i, _, j, _, hij, heq⟩ :=
    Finset.exists_ne_map_eq_of_card_lt_of_maps_to hcard hmaps
  rcases Nat.lt_or_ge i j with hlt | hge
  · obtain ⟨d, rfl⟩ : ∃ d, j = i + d + 1 := ⟨j - i - 1, by omega⟩
    refine ⟨(ys i).1, ?_⟩
    have := hchain d i
    rw [show (ys (i + d + 1)).1 = (ys i).1 from heq.symm] at this
    exact this
  · have hlt : j < i := by omega
    obtain ⟨d, rfl⟩ : ∃ d, i = j + d + 1 := ⟨i - j - 1, by omega⟩
    refine ⟨(ys j).1, ?_⟩
    have := hchain d j
    rw [show (ys (j + d + 1)).1 = (ys j).1 from heq] at this
    exact this

theorem topoFuel_none_cycle (E : List (String × String)) :
    ∀ (f : Nat) (rem : List String),
    f = rem.length →
    topoFuel E f rem = none →
    ∃ z, Relation.TransGen (fun a b => (a, b) ∈ E) z z := by
  intro f
  induction f with
  | zero =>
    intro rem hf h
    have : rem = [] := by
      cases rem with
      | nil => rfl
      | cons a l => cases hf
    subst this
    simp [topoFuel] at h
  | succ f ih =>
    intro rem hf h
    have hne : rem ≠ [] := by
      intro hnil
      subst hnil
      cases hf
    simp only [topoFuel] at h
    rw [if_neg (by simpa using hne)] at h
    cases hfind : rem.find? (noIncoming E rem) with
    | none =>
      rw [hfind] at h
      have hall : ∀ n ∈ rem, ∃ m ∈ rem, (m, n) ∈ E := by
        intro n hn
        have hnpred := List.find?_eq_none.mp hfind n hn
        have : ¬(∀ m ∈ rem, (m, n) ∉ E) := by
          intro hcontra
          apply hnpred
          unfold noIncoming
          rw [List.all_eq_true]
          intro m hm
          simpa using hcontra m hm
        push_neg at this
        obtain ⟨m, hm, hmE⟩ := this
        exact ⟨m, hm, hmE⟩
      obtain ⟨z, hz⟩ := exists_cycle_of_no_source E rem hne hall
      exact ⟨z, hz.mono (fun a b hab => hab.1)⟩
    | some n =>
      rw [hfind] at h
      have h' : Option.map (fun ord => n :: ord) (topoFuel E f (rem.erase n)) =
          none := h
      have hrec : topoFuel E f (rem.erase n) = none := Option.map_eq_none'.mp h'
      have hmem : n ∈ rem := List.mem_of_find?_eq_some hfind
      have hlen : f = (rem.erase n).length := by
        rw [List.length_erase_of_mem hmem]
        omega
      exact ih (rem.erase n) hlen hrec

theorem subgraph_edge_mem (g : Graph) (pkgs : List String)
    (e : String × String) (he : e ∈ (subgraph g pkgs).edges) :
    e.1 ∈ (subgraph g pkgs).nodes.map Prod.fst ∧
    e.2 ∈ (subgraph g pkgs).nodes.map Prod.fst := by
  unfold subgraph at he ⊢
  simp only [List.mem_filter, Bool.and_eq_true, decide_eq_true_eq] at he
  exact he.2

/-- C4: when the induced subgraph on the selected package set is acyclic,
order_build succeeds and returns that subgraph together with an order in
which, for every edge (package, dependency) of the induced subgraph, the
dependency occurs before the dependent package. -/
theorem order_build_deps_precede (g : Graph) (packages : List String)
    (fd : Bool)
    (hacyc : ∀ z, ¬ Relation.TransGen
      (fun a b => (a, b) ∈ (subgraph g (selectPackages g packages fd)).edges)
      z z) :
    ∃ ord, order_build g packages fd =
        Except.ok (subgraph g (selectPackages g packages fd), ord) ∧
      ∀ e ∈ (subgraph g (selectPackages g packages fd)).edges,
        List.Sublist [e.2, e.1] ord := by
  cases hts : topological_sort
      (subgraph g (selectPackages g packages fd)).edges
      ((subgraph g (selectPackages g packages fd)).nodes.map Prod.fst) with
  | none =>
    exfalso
    have hts' : topoFuel (subgraph g (selectPackages g packages fd)).edges
        ((subgraph g (selectPackages g packages fd)).nodes.map Prod.fst).length
        ((subgraph g (selectPackages g packages fd)).nodes.map Prod.fst) =
        none := hts
    obtain ⟨z, hz⟩ := topoFuel_none_cycle _ _ _ rfl hts'
    exact hacyc z hz
  | some ord0 =>
    refine ⟨ord0.reverse, ?_, ?_⟩
    · simp only [order_build, hts]
    · intro e he
      have hts' : topoFuel (subgraph g (selectPackages g packages fd)).edges
          ((subgraph g (selectPackages g packages fd)).nodes.map Prod.fst).length
          ((subgraph g (selectPackages g packages fd)).nodes.map Prod.fst) =
          some ord0 := hts
      obtain ⟨h1, h2⟩ := subgraph_edge_mem g (selectPackages g packages fd) e he
      have hsub : List.Sublist [e.1, e.2] ord0 :=
        topoFuel_order_sub _ _ _ _ hts' e.1 e.2 (by simpa using he) h1 h2
      have := hsub.reverse
      simpa using this

/-- C5: when the induced subgraph on the selected package set contains a
directed cycle, order_build raises the ValueError (whose message is
formatted from the induced subgraph by nx.find_cycle) and returns no
order at all, partial or otherwise. -/
theorem order_build_cycle_error (g : Graph) (packages : List String)
    (fd : Bool) (z : String)
    (hcyc : Relation.TransGen
      (fun a b => (a, b) ∈ (subgraph g (selectPackages g packages fd)).edges)
      z z) :
    order_build g packages fd =
      Except.error (subgraph g (selectPackages g packages fd)) := by
  cases hts : topological_sort
      (subgraph g (selectPackages g packages fd)).edges
      ((subgraph g (selectPackages g packages fd)).nodes.map Prod.fst) with
  | none =>
    simp only [order_build, hts]
  | some ord0 =>
    exfalso
    have hts' : topoFuel (subgraph g (selectPackages g packages fd)).edges
        ((subgraph g (selectPackages g packages fd)).nodes.map Prod.fst).length
        ((subgraph g (selectPackages g packages fd)).nodes.map Prod.fst) =
        some ord0 := hts
    have hmono : ∀ a b, Relation.TransGen
        (fun a b => (a, b) ∈ (subgraph g (selectPackages g packages fd)).edges)
        a b → ord0.indexOf a < ord0.indexOf b := by
      intro a b hab
      induction hab with
      | single h =>
        obtain ⟨h1, h2⟩ := subgraph_edge_mem g (selectPackages g packages fd) _ h
        exact topoFuel_order_idx _ _ _ _ hts' a _ h h1 h2
      | tail _ h ihab =>
        obtain ⟨h1, h2⟩ := subgraph_edge_mem g (selectPackages g packages fd) _ h
        exact lt_trans ihab (topoFuel_order_idx _ _ _ _ hts' _ _ h h1 h2)
    exact absurd (hmono z z hcyc) (lt_irrefl _)

theorem transGen_single_edge_irrefl (u v : String) (huv : u ≠ v) (z : String) :
    ¬ Relation.TransGen
      (fun a b => (a, b) ∈ ([(u, v)] : List (String × String))) z z := by
  intro h
  have hsnd : ∀ a b, Relation.TransGen
      (fun a b => (a, b) ∈ ([(u, v)] : List (String × String))) a b → b = v := by
    intro a b hab
    induction hab with
    | single h1 => exact congrArg Prod.snd (List.mem_singleton.mp h1)
    | tail _ h1 _ => exact congrArg Prod.snd (List.mem_singleton.mp h1)
  have hfst : ∀ a b, Relation.TransGen
      (fun a b => (a, b) ∈ ([(u, v)] : List (String × String))) a b → a = u := by
    intro a b hab
    induction hab with
    | single h1 => exact congrArg Prod.fst (List.mem_singleton.mp h1)
    | tail _ _ ih => exact ih
  have hz : z = v := hsnd z z h
  have hz2 : z = u := hfst z z h
  exact huv (hz2 ▸ hz)

/-- C4 witness graph: recipe a build-depends on b; the induced subgraph on
both packages is acyclic. -/
def gC4 : Graph :=
  { nodes := [("a", mkNode true false false "1.0"),
              ("b", mkNode false false false "1.0")],
    edges := [("a", "b")] }

theorem order_build_deps_precede_witness :
    ∃ ord, order_build gC4 ["a", "b"] true =
        Except.ok (subgraph gC4 (selectPackages gC4 ["a", "b"] true), ord) ∧
      ∀ e ∈ (subgraph gC4 (selectPackages gC4 ["a", "b"] true)).edges,
        List.Sublist [e.2, e.1] ord :=
  order_build_deps_precede gC4 ["a", "b"] true (by
    intro z
    have hE : (subgraph gC4 (selectPackages gC4 ["a", "b"] true)).edges =
        [("a", "b")] := by decide
    simp only [hE]
    exact transGen_single_edge_irrefl "a" "b" (by decide) z)

/-- C5 witness graph: a and b build-depend on each other (a cycle). -/
def gC5 : Graph :=
  { nodes := [("a", mkNode true false false "1.0"),
              ("b", mkNode false false false "1.0")],
    edges := [("a", "b"), ("b", "a")] }

theorem order_build_cycle_error_witness :
    order_build gC5 ["a", "b"] true =
      Except.error (subgraph gC5 (selectPackages gC5 ["a", "b"] true)) :=
  order_build_cycle_error gC5 ["a", "b"] true "a"
    (Relation.TransGen.tail
      (Relation.TransGen.single
        (show ("a", "b") ∈ (subgraph gC5 (selectPackages gC5 ["a", "b"] true)).edges
          by decide))
      (show ("b", "a") ∈ (subgraph gC5 (selectPackages gC5 ["a", "b"] true)).edges
        by decide))

/-- C9: a directory x is reported by git_changed_recipes exactly when some
changed file lies inside a folder whose first path component is x and
find_recipe accepts x; top-level files (containing no slash) and files
under non-recipe folders contribute nothing. -/
theorem git_changed_recipes_spec (isRecipe : String → Bool)
    (changed_files : List String) (x : String) :
    x ∈ git_changed_recipes isRecipe changed_files ↔
      ∃ f ∈ changed_files, f.contains (Char.ofNat 47) = true ∧
        x = (f.splitOn "/").headD "" ∧ isRecipe x = true := by
  unfold git_changed_recipes get_base_folders
  rw [List.mem_filterMap]
  constructor
  · rintro ⟨f, hf, hx⟩
    dsimp only at hx
    split at hx
    · rename_i hsl
      split at hx
      · rename_i hr
        simp only [Option.some.injEq] at hx
        subst hx
        exact ⟨f, hf, hsl, rfl, hr⟩
      · cases hx
    · cases hx
  · rintro ⟨f, hf, hsl, hx, hr⟩
    subst hx
    refine ⟨f, hf, ?_⟩
    dsimp only
    rw [if_pos hsl, if_pos hr]

theorem lookupN_addNode_ne (g : Graph) (n : String) (d : NodeData) (x : String)
    (hx : (n == x) = false) : lookupN (addNode g n d) x = lookupN g x := by
  unfold lookupN addNode
  simp only [List.find?_append]
  cases hfind : g.nodes.find? (fun p => p.1 == x) with
  | some a => rfl
  | none => simp [List.find?_cons, hx]

theorem lookupN_addNode_self (g : Graph) (n : String) (d : NodeData)
    (hnone : lookupN g n = none) : lookupN (addNode g n d) n = some d := by
  unfold lookupN addNode
  unfold lookupN at hnone
  rw [Option.map_eq_none'] at hnone
  simp only [List.find?_append, hnone]
  simp [List.find?_cons]

theorem lookupN_setInstall_ne (g : Graph) (n x : String) (hx : x ≠ n) :
    lookupN (setInstall g n) x = lookupN g x := by
  unfold setInstall
  rw [lookupN_updNode, if_neg hx]

theorem lookupN_setInstall_isSome (g : Graph) (n : String) :
    (lookupN (setInstall g n) n).isSome = (lookupN g n).isSome := by
  unfold setInstall
  rw [lookupN_updNode, if_pos rfl]
  cases lookupN g n <;> rfl

theorem lookupN_edges_irrelevant (ns : List (String × NodeData))
    (e1 e2 : List (String × String)) (x : String) :
    lookupN { nodes := ns, edges := e1 } x =
      lookupN { nodes := ns, edges := e2 } x := rfl

theorem add_edge_lookup (g : Graph) (u v x : String)
    (hu : (lookupN g u).isSome = true) (hv : (lookupN g v).isSome = true) :
    lookupN (add_edge g u v) x = lookupN g x := by
  unfold add_edge
  dsimp only
  rw [if_pos hu, if_pos hv]
  split <;> rfl

theorem addDep_preserves (name : String) (g : Graph) (dv : String × String)
    (x : String) (hx : x ≠ dv.1) (d : NodeData)
    (hd : lookupN g x = some d) :
    lookupN (addDep name g dv) x = some d := by
  unfold addDep
  dsimp only
  have hbeq : (dv.1 == x) = false := beq_eq_false_iff_ne.mpr (fun h => hx h.symm)
  by_cases hdv : (lookupN g dv.1).isSome = true
  · rw [if_pos hdv]
    have hset : lookupN (setInstall g dv.1) x = some d := by
      rw [lookupN_setInstall_ne g dv.1 x hx]
      exact hd
    have hsome : (lookupN (setInstall g dv.1) dv.1).isSome = true := by
      rw [lookupN_setInstall_isSome]
      exact hdv
    by_cases hname : (lookupN (setInstall g dv.1) name).isSome = true
    · rw [add_edge_lookup _ name dv.1 x hname hsome]
      exact hset
    · unfold add_edge
      dsimp only
      rw [if_neg hname]
      have hnx : (name == x) = false := by
        refine beq_eq_false_iff_ne.mpr (fun h => ?_)
        subst h
        rw [hset] at hname
        exact hname rfl
      have hnamedv : (name == dv.1) = false := by
        refine beq_eq_false_iff_ne.mpr (fun h => ?_)
        rw [h] at hname
        exact hname hsome
      have h1 : lookupN (addNode (setInstall g dv.1) name bareNode) x = some d := by
        rw [lookupN_addNode_ne _ name bareNode x hnx]
        exact hset
      have h2 : (lookupN (addNode (setInstall g dv.1) name bareNode) dv.1).isSome
          = true := by
        rw [lookupN_addNode_ne _ name bareNode dv.1 hnamedv]
        exact hsome
      rw [if_pos h2]
      split <;> exact h1
  · rw [if_neg hdv]
    have hd1 : lookupN (addNode g dv.1
        { meta := some (placeholderMeta dv.2), recipe := none,
          build := false, test := false, install := false }) x = some d := by
      rw [lookupN_addNode_ne _ dv.1 _ x hbeq]
      exact hd
    have hdvnone : lookupN g dv.1 = none := by
      cases hlk : lookupN g dv.1 with
      | none => rfl
      | some a =>
        rw [hlk] at hdv
        exact absurd rfl hdv
    have hdvsome : (lookupN (addNode g dv.1
        { meta := some (placeholderMeta dv.2), recipe := none,
          build := false, test := false, install := false }) dv.1).isSome
        = true := by
      rw [lookupN_addNode_self _ dv.1 _ hdvnone]
      rfl
    have hset : lookupN (setInstall (addNode g dv.1
        { meta := some (placeholderMeta dv.2), recipe := none,
          build := false, test := false, install := false }) dv.1) x
        = some d := by
      rw [lookupN_setInstall_ne _ dv.1 x hx]
      exact hd1
    have hsome : (lookupN (setInstall (addNode g dv.1
        { meta := some (placeholderMeta dv.2), recipe := none,
          build := false, test := false, install := false }) dv.1) dv.1).isSome
        = true := by
      rw [lookupN_setInstall_isSome]
      exact hdvsome
    by_cases hname : (lookupN (setInstall (addNode g dv.1
        { meta := some (placeholderMeta dv.2), recipe := none,
          build := false, test := false, install := false }) dv.1) name).isSome
        = true
    · rw [add_edge_lookup _ name dv.1 x hname hsome]
      exact hset
    · unfold add_edge
      dsimp only
      rw [if_neg hname]
      have hnx : (name == x) = false := by
        refine beq_eq_false_iff_ne.mpr (fun h => ?_)
        subst h
        rw [hset] at hname
        exact hname rfl
      have hnamedv : (name == dv.1) = false := by
        refine beq_eq_false_iff_ne.mpr (fun h => ?_)
        rw [h] at hname
        exact hname hsome
      have h1 : lookupN (addNode (setInstall (addNode g dv.1
          { meta := some (placeholderMeta dv.2), recipe := none,
            build := false, test := false, install := false }) dv.1)
          name bareNode) x = some d := by
        rw [lookupN_addNode_ne _ name bareNode x hnx]
        exact hset
      have h2 : (lookupN (addNode (setInstall (addNode g dv.1
          { meta := some (placeholderMeta dv.2), recipe := none,
            build := false, test := false, install := false }) dv.1)
          name bareNode) dv.1).isSome = true := by
        rw [lookupN_addNode_ne _ name bareNode dv.1 hnamedv]
        exact hsome
      rw [if_pos h2]
      split <;> exact h1

theorem foldl_addDep_preserves (name x : String) (d : NodeData) :
    ∀ (ds : List (String × String)) (g : Graph),
    (∀ dv ∈ ds, dv.1 ≠ x) → lookupN g x = some d →
    lookupN (ds.foldl (addDep name) g) x = some d := by
  intro ds
  induction ds with
  | nil =>
    intro g _ hd
    exact hd
  | cons dv rest ih =>
    intro g hds hd
    have h1 : lookupN (addDep name g dv) x = some d :=
      addDep_preserves name g dv x
        (fun h => hds dv (List.mem_cons_self dv rest) h.symm) d hd
    exact ih (addDep name g dv) (fun q hq => hds q (List.mem_cons_of_mem dv hq)) h1

theorem replaceNodeL_eq_updNodeL (n : String) (d : NodeData) :
    ∀ l, replaceNodeL n d l = updNodeL (fun _ => d) n l := by
  intro l
  induction l with
  | nil => rfl
  | cons p rest ih =>
    by_cases hpn : (p.1 == n) = true <;>
      simp [replaceNodeL, updNodeL, hpn, ih]

theorem lookupN_replaceNode_self (g : Graph) (n : String) (d d0 : NodeData)
    (h : lookupN g n = some d0) : lookupN (replaceNode g n d) n = some d := by
  have heq : replaceNode g n d = updNode (fun _ => d) n g := by
    unfold replaceNode updNode
    rw [replaceNodeL_eq_updNodeL]
  rw [heq, lookupN_updNode, if_pos rfl, h]
  rfl

/-- C3 (amended): when construct_graph meets a real (non-skipped) recipe
for a name that already has a node — such as a dependency placeholder with
install=true — the node is merged by overwriting, not by OR: meta and
recipe are replaced, build/test are set from the recipe's own changed
status, and install is reset to false (it becomes true again only if some
recipe processed later declares this package as a dependency). -/
theorem addRecipe_merges_by_overwrite (folders : List String) (dt : RunType)
    (g : Graph) (r : Rendered) (d0 : NodeData)
    (hskip : r.skip = false)
    (hprev : lookupN g r.name = some d0)
    (hnotdep : ∀ dv ∈ selectedDeps dt r, dv.1 ≠ r.name) :
    lookupN (addRecipe folders dt g r) r.name =
      some { meta := some (describe_meta r), recipe := some r.dirName,
             build := (runDict folders dt r.dirName).1,
             test := (runDict folders dt r.dirName).2, install := false } := by
  unfold addRecipe
  dsimp only
  rw [hskip, if_neg Bool.false_ne_true, hprev]
  exact foldl_addDep_preserves r.name r.name _ (selectedDeps dt r)
    (replaceNode g r.name _) hnotdep
    (lookupN_replaceNode_self g r.name _ d0 hprev)

/-- The two-recipe C3 scenario: recipe a build-depends on b, and recipe b
is rendered after it. -/
def rA : Rendered :=
  { dirName := "a", name := "a", version := "1.0", buildNum := 0,
    skip := false, build_depends := [("b", "")], run_test_depends := [] }

/-- The recipe for b in the C3 scenario. -/
def rB : Rendered :=
  { dirName := "b", name := "b", version := "1.0", buildNum := 0,
    skip := false, build_depends := [], run_test_depends := [] }

/-- C3 counterexample: after recipe a is processed, b exists as a
placeholder with install=true; processing recipe b merges it and install
is cleared to false, so the flags are not OR-combined. -/
theorem construct_graph_merge_clears_install :
    (lookupN (construct_graph [] RunType.build [rA]) "b").map NodeData.install =
      some true ∧
    (lookupN (construct_graph [] RunType.build [rA, rB]) "b").map
      NodeData.install = some false :=
  ⟨rfl, rfl⟩

theorem addRecipe_merges_by_overwrite_witness :
    lookupN (addRecipe [] RunType.build (construct_graph [] RunType.build [rA]) rB)
        "b" =
      some { meta := some (describe_meta rB), recipe := some rB.dirName,
             build := (runDict [] RunType.build rB.dirName).1,
             test := (runDict [] RunType.build rB.dirName).2,
             install := false } :=
  addRecipe_merges_by_overwrite [] RunType.build
    (construct_graph [] RunType.build [rA]) rB
    { meta := some (placeholderMeta ""), recipe := none,
      build := false, test := false, install := true }
    rfl (by decide) (by decide)

theorem add_edge_creates_u (g : Graph) (u v : String)
    (hu : lookupN g u = none) (hv : (lookupN g v).isSome = true) :
    lookupN (add_edge g u v) u = some bareNode := by
  unfold add_edge
  dsimp only
  have hg1 : (if (lookupN g u).isSome = true then g else addNode g u bareNode) =
      addNode g u bareNode := by
    rw [hu]
    rfl
  rw [hg1]
  have hvne : (u == v) = false := by
    refine beq_eq_false_iff_ne.mpr (fun h => ?_)
    subst h
    rw [hu] at hv
    cases hv
  have hself : lookupN (addNode g u bareNode) u = some bareNode :=
    lookupN_addNode_self g u bareNode hu
  have hv2 : (lookupN (addNode g u bareNode) v).isSome = true := by
    rw [lookupN_addNode_ne g u bareNode v hvne]
    exact hv
  rw [if_pos hv2]
  split <;> exact hself

theorem addDep_creates (name : String) (g : Graph) (dv : String × String)
    (hne : dv.1 ≠ name) (hnone : lookupN g name = none) :
    lookupN (addDep name g dv) name = some bareNode := by
  unfold addDep
  dsimp only
  by_cases hdv : (lookupN g dv.1).isSome = true
  · rw [if_pos hdv]
    refine add_edge_creates_u _ name dv.1 ?_ ?_
    · rw [lookupN_setInstall_ne g dv.1 name (fun h => hne h.symm)]
      exact hnone
    · rw [lookupN_setInstall_isSome]
      exact hdv
  · rw [if_neg hdv]
    have hdvnone : lookupN g dv.1 = none := by
      cases h : lookupN g dv.1 with
      | none => rfl
      | some a =>
        rw [h] at hdv
        exact absurd rfl hdv
    refine add_edge_creates_u _ name dv.1 ?_ ?_
    · rw [lookupN_setInstall_ne _ dv.1 name (fun h => hne h.symm),
        lookupN_addNode_ne g dv.1 _ name (beq_eq_false_iff_ne.mpr hne)]
      exact hnone
    · rw [lookupN_setInstall_isSome, lookupN_addNode_self g dv.1 _ hdvnone]
      rfl

/-- C8 (amended): a recipe whose rendered metadata reports skip=true is
never registered directly, even when its directory is in the changed set:
when it declares no dependencies (in the selected requirement set) and no
node of its name exists, no node is created at all; when it does declare
dependencies, its node comes into existence only as a side effect of edge
insertion, with empty attributes — no metadata, no recipe directory and
all three flags false — so it carries no build/test intent from its own
changed status. -/
theorem addRecipe_skip (folders : List String) (dt : RunType) (g : Graph)
    (r : Rendered)
    (hskip : r.skip = true)
    (hfresh : lookupN g r.name = none)
    (hnotdep : ∀ dv ∈ selectedDeps dt r, dv.1 ≠ r.name) :
    (selectedDeps dt r = [] →
      lookupN (addRecipe folders dt g r) r.name = none) ∧
    (∀ dv0 rest, selectedDeps dt r = dv0 :: rest →
      lookupN (addRecipe folders dt g r) r.name = some bareNode) := by
  unfold addRecipe
  dsimp only
  rw [hskip, if_pos rfl]
  constructor
  · intro hnil
    rw [hnil]
    exact hfresh
  · intro dv0 rest hcons
    rw [hcons]
    simp only [List.foldl_cons]
    refine foldl_addDep_preserves r.name r.name bareNode rest
      (addDep r.name g dv0)
      (fun q hq => hnotdep q (by rw [hcons]; exact List.mem_cons_of_mem dv0 hq))
      ?_
    exact addDep_creates r.name g dv0
      (hnotdep dv0 (by rw [hcons]; exact List.mem_cons_self dv0 rest)) hfresh

/-- A skipped recipe with no dependencies (C8 counterexample scenario);
its directory is in the changed set. -/
def rS : Rendered :=
  { dirName := "s", name := "s", version := "1", buildNum := 0,
    skip := true, build_depends := [], run_test_depends := [] }

/-- A skipped recipe with one dependency (C8 witness scenario). -/
def rS2 : Rendered :=
  { dirName := "s", name := "s", version := "1", buildNum := 0,
    skip := true, build_depends := [("d", "")], run_test_depends := [] }

/-- C8 counterexample: a skipped recipe with no dependencies is not
registered at all — the resulting graph has no nodes, although the
recipe's directory is in the changed set. -/
theorem construct_graph_skip_unregistered :
    (construct_graph ["s"] RunType.build [rS]).nodes = [] ∧
    lookupN (construct_graph ["s"] RunType.build [rS]) "s" = none :=
  ⟨rfl, rfl⟩

theorem addRecipe_skip_witness :
    (selectedDeps RunType.build rS2 = [] →
      lookupN (addRecipe ["s"] RunType.build (Graph.mk [] []) rS2) "s" = none) ∧
    (∀ dv0 rest, selectedDeps RunType.build rS2 = dv0 :: rest →
      lookupN (addRecipe ["s"] RunType.build (Graph.mk [] []) rS2) "s" =
        some bareNode) :=
  addRecipe_skip ["s"] RunType.build (Graph.mk [] []) rS2 rfl rfl (by decide)

end CGC
